import Mathlib

/-!

# Verification of the skill-organizer core

A shallow embedding, in Lean 4, of the skill-organizer extension's two core
subsystems (source acquisition and materialization/reconciliation) together
with the persistent selection overlay that feeds them.  Every definition is
translated from the TypeScript source:

* the materializer and manifest store (`materializeSkillsToWorkspace`,
  `loadManifest`, `writeManifest`, `markSkillAsManual`, `markSkillAsManaged`,
  `uninstallMaterializedSkill`, `updateManagedMaterializedSkill`,
  `reconcileUntrackedSkills`, `sanitizeFolderName`,
  `assertNoFolderNameConflicts`);
* the source manager (`parseGitHubSourceInput`, `toGitHubSshUri`,
  `getGitHubOwner`, `isGitHubRepoUri`, `isAuthenticationFailure`,
  `extractGitStderr`, `buildGitError`, `runGitWithAuthFallback`,
  `cloneRepoWithFallback`, `discoverSkills`, `findSkillDirectories`);
* the extension command layer's overlay operations (`toggleSkill`,
  `freezeSkill`, `unfreezeSkill`, `applyGlobalProfile`,
  `updateManagedSkill`, `syncMaterializedEnabledSkills`).

Filesystem and process effects are made explicit: the destination tree is a
finite map from folder names to folder contents, the manifest file is a
small JSON model, and git subprocess invocations are driven by an explicit
environment of per-attempt outcomes.  Functions whose TypeScript bodies can
throw return `Except`; where the post-throw state matters the function
returns the state alongside the `Except` value.

-/

/-! ## Generic list and character utilities

Small executable helpers standing in for the JavaScript string/array
operations used by the source (`Set` de-duplication preserving first
insertion, default `Array.sort` over strings, `String.trim`,
`String.split`, `String.includes`, `String.toLowerCase`).  All are
structurally recursive so that concrete instances evaluate by `decide`.
-/

/-- Keep the first occurrence of every string, dropping later duplicates:
the effect of `[...new Set(list)]` in JavaScript. -/
def dedupKeepFirst (l : List String) : List String :=
  go l []
where go : List String → List String → List String
  | [], _ => []
  | x :: xs, seen => if seen.contains x then go xs seen else x :: go xs (x :: seen)

/-- Code-point lexicographic order on character lists: the effect of the
default JavaScript string comparison used by `Array.prototype.sort`
(identical to UTF-16 order on the characters in play here). -/
def lexLeChars : List Char → List Char → Bool
  | [], _ => true
  | _ :: _, [] => false
  | a :: as, b :: bs =>
    if a = b then lexLeChars as bs else decide (a.toNat < b.toNat)

/-- String comparison by code points, see `lexLeChars`. -/
def lexLeStr (a b : String) : Bool := lexLeChars a.toList b.toList

/-- Insert into a sorted list of strings (helper of `sortStrings`). -/
def insertSorted (s : String) : List String → List String
  | [] => [s]
  | x :: xs => if lexLeStr s x then s :: x :: xs else x :: insertSorted s xs

/-- Sort strings in code-point order: the effect of `strings.sort()`. -/
def sortStrings (l : List String) : List String := l.foldr insertSorted []

/-- Split a character list at a separator character: the effect of
`string.split(sep)` in JavaScript. -/
def splitChars (sep : Char) : List Char → List (List Char)
  | [] => [[]]
  | c :: rest =>
    let r := splitChars sep rest
    if c = sep then [] :: r
    else
      match r with
      | [] => [[c]]
      | g :: gs => (c :: g) :: gs

/-- ASCII whitespace used by line trimming (the stderr lines in play hold
only ASCII). -/
def isWsChar (c : Char) : Bool := c = ' ' || c = '\t' || c = '\n' || c = '\r'

/-- Trim whitespace from both ends: the effect of `string.trim()`. -/
def trimChars (l : List Char) : List Char :=
  ((l.dropWhile isWsChar).reverse.dropWhile isWsChar).reverse

/-- Whether `pat` occurs at the start of `l`. -/
def seqStartsAt : List Char → List Char → Bool
  | [], _ => true
  | _ :: _, [] => false
  | p :: ps, c :: cs => p = c && seqStartsAt ps cs

/-- Whether `pat` occurs contiguously anywhere inside `l`: the effect of
`string.includes(pat)`. -/
def hasSubSeq (l pat : List Char) : Bool :=
  match l with
  | [] => seqStartsAt pat []
  | _ :: rest => seqStartsAt pat l || hasSubSeq rest pat

/-- `string.includes(pat)` on Lean strings. -/
def includesStr (s pat : String) : Bool := hasSubSeq s.toList pat.toList

/-- ASCII lowercasing of a string: the effect of `string.toLowerCase()` on
the ASCII data in play. -/
def lowerStr (s : String) : String := String.mk (s.toList.map Char.toLower)

/-- Join string segments with a forward slash: `segments.join("/")`. -/
def joinSlash : List String → String
  | [] => ""
  | [s] => s
  | s :: rest => s ++ "/" ++ joinSlash rest

/-! ## Data model -/

/-- A discovered skill bundle, from `types.ts` (`SkillItem`): `id` is
`sourceId + ":" + relativePath`, `slug` is the bundle directory's name. -/
structure SkillItem where
  id : String
  sourceId : String
  slug : String
  relativePath : String
  absolutePath : String
deriving DecidableEq, Repr

/-- The persisted manifest value, from the materializer module
(`SkillManifest`): destination folder names partitioned into managed and
manual. -/
structure SkillManifest where
  managedFolders : List String
  manualFolders : List String
deriving DecidableEq, Repr

/-- `sanitizeFolderName` from the materializer module:
`input.trim().toLowerCase()`, then every run of characters outside
`[a-z0-9._-]` becomes a single hyphen, then runs of hyphens collapse to
one; an empty result falls back to `"skill"`.  `replaceRuns` below renders
one regex-replace pass `replace(/X+/g, repl)`. -/
def isAllowedFolderChar (c : Char) : Bool :=
  ('a' ≤ c && c ≤ 'z') || ('0' ≤ c && c ≤ '9') || c = '.' || c = '_' || c = '-'

/-- One global regex-replace pass: each maximal run of characters matching
`p` is replaced by the single character `repl`.  The boolean argument
records whether the previous character was inside such a run. -/
def replaceRuns (p : Char → Bool) (repl : Char) : List Char → Bool → List Char
  | [], _ => []
  | c :: rest, inRun =>
    if p c then
      if inRun then replaceRuns p repl rest true
      else repl :: replaceRuns p repl rest true
    else c :: replaceRuns p repl rest false

/-- `sanitizeFolderName` (also `normalizeManagedSkillFolderName`, whose
TypeScript body is identical): derives a destination folder name from a
slug. -/
def sanitizeFolderName (input : String) : String :=
  let pass1 := replaceRuns (fun c => !isAllowedFolderChar c) '-'
    ((trimChars input.toList).map Char.toLower) false
  let normalized := String.mk (replaceRuns (fun c => c = '-') '-' pass1 false)
  if normalized = "" then "skill" else normalized

/-- `createTargetFolderName` / `getSkillTargetFolderName`: the destination
folder name of a skill is its sanitized slug. -/
def createTargetFolderName (skill : SkillItem) : String :=
  sanitizeFolderName skill.slug

/-! ## Manifest file model

`loadManifest` reads `.skill-organizer.manifest.json` and tolerates an
absent file, syntactically invalid JSON, a non-array `managedFolders`
field (all three yield the empty manifest without writing), and an absent
or non-array `manualFolders` field (treated as empty, and the file is
rewritten once in canonical form).  The JSON surface is modelled just as
deep as the code inspects it: each folder array element is either a string
or something else (dropped by the `typeof`/length filter), each of the two
fields is either missing, a non-array, or an array, and the file as a
whole is absent, unparseable, or parsed.
-/

/-- An element of a parsed JSON folder array. -/
inductive JElem where
  | jstr (s : String)
  | other (tag : Nat)
deriving DecidableEq, Repr

/-- A top-level manifest field as the code sees it after the JSON cast. -/
inductive JField where
  | missing
  | notArray (tag : Nat)
  | array (elems : List JElem)
deriving DecidableEq, Repr

/-- The manifest file's state on disk. -/
inductive ManifestFile where
  | absent
  | invalidJson (tag : Nat)
  | parsed (managedField manualField : JField)
deriving DecidableEq, Repr

/-- The `typeof entry === "string" && entry.length > 0` filter applied to a
parsed folder array. -/
def jStrings (elems : List JElem) : List String :=
  elems.filterMap fun e =>
    match e with
    | .jstr s => if s = "" then none else some s
    | .other _ => none

/-- `writeManifest`: the file content written for a manifest value — both
arrays de-duplicated and sorted (the JSON indentation and trailing newline
carry no information at this level). -/
def writeManifestFile (m : SkillManifest) : ManifestFile :=
  .parsed (.array ((sortStrings (dedupKeepFirst m.managedFolders)).map .jstr))
          (.array ((sortStrings (dedupKeepFirst m.manualFolders)).map .jstr))

/-- `loadManifest`: returns the loaded manifest together with the file
content written back by the one-time migration (`none` when the file is
left untouched).  Every throw inside the body — read failure, JSON parse
failure, non-array `managedFolders` — is caught and yields the empty
manifest with no write. -/
def loadManifest (file : ManifestFile) : SkillManifest × Option ManifestFile :=
  match file with
  | .absent => (⟨[], []⟩, none)
  | .invalidJson _ => (⟨[], []⟩, none)
  | .parsed managedField manualField =>
    match managedField with
    | .missing => (⟨[], []⟩, none)
    | .notArray _ => (⟨[], []⟩, none)
    | .array managedElems =>
      let managedFolders := jStrings managedElems
      let manualFolders :=
        match manualField with
        | .array manualElems => jStrings manualElems
        | _ => []
      let manifest : SkillManifest :=
        ⟨sortStrings (dedupKeepFirst managedFolders),
         sortStrings (dedupKeepFirst manualFolders)⟩
      match manualField with
      | .array _ => (manifest, none)
      | _ => (manifest, some (writeManifestFile manifest))

/-! ## Destination tree state

The materialization destination (`<workspace>/.github/skills` by default) is
modelled as: whether the directory itself exists (`fs.mkdir` creates it),
an association list from folder name to folder content, and the manifest
file.  A folder's content is either a verbatim recursive copy of a bundle
directory (identified by the bundle's source `absolutePath`; bundle
directories contain the `SKILL.md` sentinel by construction, since
discovery finds them by it) or pre-existing local content with an abstract
tag and an explicit sentinel flag.  Plain files in the destination (such as
the manifest file itself) are not folder entries; `reconcileUntrackedSkills`
skips non-directories via `stat`, which the model reflects by listing only
directories.
-/

/-- Content of one destination folder. -/
inductive FolderContent where
  | copiedFrom (absolutePath : String)
  | preexisting (hasSentinel : Bool) (tag : Nat)
deriving DecidableEq, Repr

/-- Whether a destination folder directly contains the `SKILL.md`
sentinel. -/
def contentHasSentinel : FolderContent → Bool
  | .copiedFrom _ => true
  | .preexisting h _ => h

/-- The destination tree plus its manifest file. -/
structure DestState where
  rootExists : Bool
  folders : List (String × FolderContent)
  manifestFile : ManifestFile
deriving DecidableEq, Repr

/-- Look a folder up by name. -/
def lookupFolder (name : String) (folders : List (String × FolderContent)) :
    Option FolderContent :=
  match folders with
  | [] => none
  | (n, c) :: rest => if n = name then some c else lookupFolder name rest

/-- `fs.rm(path, {recursive: true, force: true})` on one destination
folder: drops the entry if present, no error if absent. -/
def removeFolder (name : String) (folders : List (String × FolderContent)) :
    List (String × FolderContent) :=
  folders.filter fun p => p.1 ≠ name

/-- `fs.rm` then `fs.cp(src, target, {recursive: true})`: overwrite the
destination folder with a copy of the bundle directory. -/
def copyFolder (name : String) (absolutePath : String)
    (folders : List (String × FolderContent)) : List (String × FolderContent) :=
  removeFolder name folders ++ [(name, .copiedFrom absolutePath)]

/-- Apply `loadManifest`'s one-time migration write to the state. -/
def applyMigration (st : DestState) : DestState :=
  match (loadManifest st.manifestFile).2 with
  | none => st
  | some file => { st with manifestFile := file }

/-! ## Conflict detection -/

/-- The structured content of the `NameConflictError` thrown by
`assertNoFolderNameConflicts`: every destination folder name claimed by
more than one desired bundle, with the claiming bundles (whose `slug` and
`relativePath` the rendered message lists), grouped by the shared name in
first-occurrence order. -/
structure NameConflictError where
  conflicts : List (String × List SkillItem)
deriving DecidableEq, Repr

/-- The `Map`-grouping inside `assertNoFolderNameConflicts`: plan entries
grouped by destination folder name, keys in first-insertion order, values
in insertion order. -/
def groupsByFolder (plan : List (SkillItem × String)) :
    List (String × List SkillItem) :=
  (dedupKeepFirst (plan.map Prod.snd)).map fun name =>
    (name, (plan.filter fun e => e.2 = name).map Prod.fst)

/-- `assertNoFolderNameConflicts`: throws when any destination folder name
is claimed by two or more desired bundles. -/
def assertNoFolderNameConflicts (plan : List (SkillItem × String)) :
    Except NameConflictError Unit :=
  let conflicts := (groupsByFolder plan).filter fun g => 1 < g.2.length
  if conflicts = [] then .ok () else .error ⟨conflicts⟩

/-! ## The materializer -/

/-- The result tuple of `materializeSkillsToWorkspace` (its `outputPath`
component is the destination root and carries no additional state). -/
structure MaterializeResult where
  copied : Nat
  removed : Nat
  skippedManual : Nat
deriving DecidableEq, Repr

/-- `materializeSkillsToWorkspace`: reconcile the destination tree with the
desired bundle list.  Mirrors the source's effect order: `mkdir` of the
destination root, conflict assertion (throwing before the manifest is even
read), manifest load (with possible migration write), manual-collision
filtering, stale managed folder removal, per-bundle overwrite copy,
manifest write.  Returns the state as left at return or throw time. -/
def materializeSkillsToWorkspace (skills : List SkillItem) (st : DestState) :
    DestState × Except NameConflictError MaterializeResult :=
  let st1 : DestState := { st with rootExists := true }
  let plan := skills.map fun skill => (skill, createTargetFolderName skill)
  match assertNoFolderNameConflicts plan with
  | .error e => (st1, .error e)
  | .ok _ =>
    let manifest := (loadManifest st1.manifestFile).1
    let st2 := applyMigration st1
    let collidingManualFolders :=
      dedupKeepFirst ((plan.map Prod.snd).filter fun folder =>
        manifest.manualFolders.contains folder)
    let filteredPlan := plan.filter fun entry =>
      !collidingManualFolders.contains entry.2
    let expectedFolders := dedupKeepFirst (filteredPlan.map Prod.snd)
    let foldersToRemove := manifest.managedFolders.filter fun folder =>
      !expectedFolders.contains folder
    let afterRemoval := foldersToRemove.foldl (fun fs name => removeFolder name fs)
      st2.folders
    let afterCopies := filteredPlan.foldl
      (fun fs entry => copyFolder entry.2 entry.1.absolutePath fs) afterRemoval
    let finalManifest : SkillManifest :=
      ⟨expectedFolders, manifest.manualFolders⟩
    let st3 : DestState :=
      { st2 with folders := afterCopies,
                 manifestFile := writeManifestFile finalManifest }
    (st3, .ok ⟨filteredPlan.length, foldersToRemove.length,
               collidingManualFolders.length⟩)

/-! ## Manifest mutators -/

/-- `markSkillAsManual`: move a (sanitized) name into `manualFolders` and
out of `managedFolders`, then persist. -/
def markSkillAsManual (skillName : String) (st : DestState) : DestState :=
  let st1 : DestState := { st with rootExists := true }
  let manifest := (loadManifest st1.manifestFile).1
  let normalized := sanitizeFolderName skillName
  let manualFolders :=
    if manifest.manualFolders.contains normalized then manifest.manualFolders
    else manifest.manualFolders ++ [normalized]
  let managedFolders := manifest.managedFolders.filter fun folder =>
    folder ≠ normalized
  { st1 with manifestFile := writeManifestFile ⟨managedFolders, manualFolders⟩ }

/-- `markSkillAsManaged`: the symmetric move into `managedFolders`. -/
def markSkillAsManaged (skillName : String) (st : DestState) : DestState :=
  let st1 : DestState := { st with rootExists := true }
  let manifest := (loadManifest st1.manifestFile).1
  let normalized := sanitizeFolderName skillName
  let managedFolders :=
    if manifest.managedFolders.contains normalized then manifest.managedFolders
    else manifest.managedFolders ++ [normalized]
  let manualFolders := manifest.manualFolders.filter fun folder =>
    folder ≠ normalized
  { st1 with manifestFile := writeManifestFile ⟨managedFolders, manualFolders⟩ }

/-- Errors thrown by `uninstallMaterializedSkill` and
`updateManagedMaterializedSkill`. -/
inductive ManagedOpError where
  | manualProtected (name : String)
  | noMatchingSkill (name : String)
deriving DecidableEq, Repr

/-- `uninstallMaterializedSkill`: refuse for manual entries unless forced;
otherwise drop the name from both manifest sets, remove the directory and
persist. -/
def uninstallMaterializedSkill (skillName : String) (force : Bool)
    (st : DestState) : DestState × Except ManagedOpError Unit :=
  let st1 : DestState := { st with rootExists := true }
  let manifest := (loadManifest st1.manifestFile).1
  let st2 := applyMigration st1
  let normalized := sanitizeFolderName skillName
  let isManual := manifest.manualFolders.contains normalized
  if isManual && !force then
    (st2, .error (.manualProtected normalized))
  else
    let managedFolders := manifest.managedFolders.filter fun f => f ≠ normalized
    let manualFolders := manifest.manualFolders.filter fun f => f ≠ normalized
    ({ st2 with folders := removeFolder normalized st2.folders,
                manifestFile := writeManifestFile ⟨managedFolders, manualFolders⟩ },
     .ok ())

/-- `updateManagedMaterializedSkill`: re-copy a single managed entry from a
matching bundle, refusing when the name is manual or no bundle matches. -/
def updateManagedMaterializedSkill (skillName : String)
    (skills : List SkillItem) (st : DestState) :
    DestState × Except ManagedOpError Unit :=
  let st1 : DestState := { st with rootExists := true }
  let normalized := sanitizeFolderName skillName
  let manifest := (loadManifest st1.manifestFile).1
  let st2 := applyMigration st1
  if manifest.manualFolders.contains normalized then
    (st2, .error (.manualProtected normalized))
  else
    match skills.find? (fun skill => createTargetFolderName skill = normalized) with
    | none => (st2, .error (.noMatchingSkill normalized))
    | some matched =>
      let managedFolders :=
        if manifest.managedFolders.contains normalized then
          manifest.managedFolders
        else manifest.managedFolders ++ [normalized]
      ({ st2 with
           folders := copyFolder normalized matched.absolutePath st2.folders,
           manifestFile :=
             writeManifestFile ⟨managedFolders, manifest.manualFolders⟩ },
       .ok ())

/-- `reconcileUntrackedSkills`: prune manifest entries whose directory is
gone, adopt untracked sentinel-bearing directories as manual, and persist
only when something changed.  Returns the change count.  (When the
destination root is missing, `readdir` throws and the function returns `0`
without touching anything.) -/
def reconcileUntrackedSkills (st : DestState) : DestState × Nat :=
  if !st.rootExists then (st, 0)
  else
    let dirEntries := st.folders.map Prod.fst
    let manifest := (loadManifest st.manifestFile).1
    let st1 := applyMigration st
    let prunedManual := manifest.manualFolders.filter fun f =>
      dirEntries.contains f
    let prunedManaged := manifest.managedFolders.filter fun f =>
      dirEntries.contains f
    let pruneCount :=
      (manifest.manualFolders.length - prunedManual.length) +
      (manifest.managedFolders.length - prunedManaged.length)
    let tracked := prunedManaged ++ prunedManual
    let adopted := st.folders.filterMap fun entry =>
      if !tracked.contains entry.1 && contentHasSentinel entry.2 then
        some entry.1
      else none
    let changed := pruneCount + adopted.length
    if 0 < changed then
      ({ st1 with manifestFile :=
           writeManifestFile ⟨prunedManaged, prunedManual ++ adopted⟩ },
       changed)
    else (st1, changed)

/-! ## Selection overlay

The three persisted identifier sets and the command layer's transitions on
them (`toggleSkill`, `freezeSkill`, `unfreezeSkill`, `applyGlobalProfile`,
`updateManagedSkill`).  JavaScript `Set`s built from the persisted arrays
are modelled by the arrays themselves: `delete` is `filter`, `add` of an
absent element appends, and spreading preserves that order.  The commands
interleave overlay writes with materialization; a materialization attempt's
success or failure enters as an explicit `SyncAttempt` argument, and the
conflict-folder check of the enable path as a `Bool`, so that each
operation's persisted overlay effect is a function.
-/

/-- The persisted selection overlay. -/
structure OverlayState where
  workspaceEnabled : List String
  globalDefaults : List String
  frozenSkills : List String
deriving DecidableEq, Repr

/-- `sourceManager.getSkillById`: first discovered skill with the id. -/
def getSkillById (allSkills : List SkillItem) (skillId : String) :
    Option SkillItem :=
  allSkills.find? fun skill => skill.id = skillId

/-- A frozen id never sits in the persisted workspace-enabled set: the
overlay invariant stated by the specification. -/
def overlayInvariant (o : OverlayState) : Prop :=
  ∀ id ∈ o.workspaceEnabled, id ∉ o.frozenSkills

/-- Whether the materialization attempt performed inside an overlay
command ran to completion or threw. -/
inductive SyncAttempt where
  | succeeds
  | throws
deriving DecidableEq, Repr

/-- The overlay write performed at the top of
`syncMaterializedEnabledSkills`: persist the enabled list with frozen ids
filtered out (the save is skipped when nothing was filtered, which leaves
the same value). -/
def syncOverlayFilter (o : OverlayState) : OverlayState :=
  { o with workspaceEnabled :=
      o.workspaceEnabled.filter fun id => !o.frozenSkills.contains id }

/-- `toggleSkill` (overlay effect): disable removes and re-syncs; enable is
rejected while the id is frozen or while a local conflict folder exists,
else saved optimistically and rolled back if materialization throws. -/
def toggleSkill (skillId : String) (conflictBlocks : Bool)
    (sync : SyncAttempt) (o : OverlayState) : OverlayState :=
  let current := o.workspaceEnabled
  let isEnabled := current.contains skillId
  if isEnabled then
    syncOverlayFilter { o with workspaceEnabled := current.filter (· ≠ skillId) }
  else if o.frozenSkills.contains skillId then o
  else if conflictBlocks then o
  else
    let o1 : OverlayState := { o with workspaceEnabled := current ++ [skillId] }
    match sync with
    | .succeeds => syncOverlayFilter o1
    | .throws => { o1 with workspaceEnabled := current }

/-- `freezeSkill` (overlay effect): remove from the enabled set and persist
that first, then add to the frozen set; when the id was enabled the
subsequent materialization failure rolls both writes back. -/
def freezeSkill (skillId : String) (sync : SyncAttempt) (o : OverlayState) :
    OverlayState :=
  if o.frozenSkills.contains skillId then o
  else
    let enabledAfter := o.workspaceEnabled.filter (· ≠ skillId)
    let wasEnabled := o.workspaceEnabled.contains skillId
    let o1 : OverlayState :=
      { o with workspaceEnabled := enabledAfter,
               frozenSkills := o.frozenSkills ++ [skillId] }
    if wasEnabled then
      match sync with
      | .succeeds => syncOverlayFilter o1
      | .throws =>
        { o1 with frozenSkills := o1.frozenSkills.filter (· ≠ skillId),
                  workspaceEnabled := enabledAfter ++ [skillId] }
    else o1

/-- `unfreezeSkill` (overlay effect): drop the id from the frozen set;
never re-enables. -/
def unfreezeSkill (skillId : String) (o : OverlayState) : OverlayState :=
  if o.frozenSkills.contains skillId then
    { o with frozenSkills := o.frozenSkills.filter (· ≠ skillId) }
  else o

/-- `applyGlobalProfile` (overlay effect): union the global defaults into
the enabled set, dropping currently frozen ids; the materialization that
follows runs after the save (its own frozen-filter write still applies on
either outcome, since it precedes the copy work). -/
def applyGlobalProfile (o : OverlayState) : OverlayState :=
  if o.globalDefaults = [] then o
  else
    let eligible := o.globalDefaults.filter fun id => !o.frozenSkills.contains id
    let unioned := o.workspaceEnabled ++
      eligible.filter fun id => !o.workspaceEnabled.contains id
    syncOverlayFilter { o with workspaceEnabled := unioned }

/-- `updateManagedSkill` (overlay effect): when no enabled skill matches
the managed folder name, the command looks the name up among all discovered
skills (`pick` models the quick-pick among several matches) and appends the
chosen skill id to the persisted enabled list when absent.  No frozen check
and no subsequent sync occur on this path. -/
def updateManagedSkillCommand (skillName : String) (allSkills : List SkillItem)
    (pick : List SkillItem → Option SkillItem) (o : OverlayState) :
    OverlayState :=
  let enabledIds := o.workspaceEnabled
  let enabledSkills := enabledIds.filterMap (getSkillById allSkills)
  let normalized := sanitizeFolderName skillName
  match enabledSkills.find? (fun s => sanitizeFolderName s.slug = normalized) with
  | some _ => o
  | none =>
    let matching := allSkills.filter fun s => sanitizeFolderName s.slug = normalized
    if matching.length = 0 then o
    else
      let selected := if matching.length = 1 then matching.head? else pick matching
      match selected with
      | none => o
      | some s =>
        if enabledIds.contains s.id then o
        else { o with workspaceEnabled := enabledIds ++ [s.id] }

/-! ## Materialization sync of the enabled set -/

/-- View an `Except` as a sum (to transport decidable equality). -/
def exceptToSum {α β : Type} : Except α β → α ⊕ β
  | .error a => .inl a
  | .ok b => .inr b

instance {α β : Type} [DecidableEq α] [DecidableEq β] : DecidableEq (Except α β) :=
  fun a b =>
    decidable_of_iff (exceptToSum a = exceptToSum b)
      (by cases a <;> cases b <;> simp [exceptToSum])

/-- The observable outcome of `syncMaterializedEnabledSkills`: the enabled
list as persisted, the destination state, the argument passed to
`materializeSkillsToWorkspace` when it was invoked (instrumentation; the
source computes no such trace), and the propagated error, if any. -/
structure SyncOutcome where
  enabled : List String
  dest : DestState
  materializeArg : Option (List SkillItem)
  result : Except NameConflictError Unit
deriving DecidableEq, Repr

/-- `syncMaterializedEnabledSkills`: filter frozen ids out of the persisted
enabled set; an empty filtered set materializes the empty list (removing
every managed folder); otherwise resolve ids to discovered skills and
materialize them, returning untouched when none resolve. -/
def syncMaterializedEnabledSkills (allSkills : List SkillItem)
    (frozen enabled : List String) (st : DestState) : SyncOutcome :=
  let filteredEnabledIds := enabled.filter fun id => !frozen.contains id
  let enabled1 :=
    if filteredEnabledIds.length ≠ enabled.length then filteredEnabledIds
    else enabled
  if filteredEnabledIds.length = 0 then
    let r := materializeSkillsToWorkspace [] st
    ⟨enabled1, r.1, some [], r.2.map fun _ => ()⟩
  else
    let skills := filteredEnabledIds.filterMap (getSkillById allSkills)
    if skills.length = 0 then ⟨enabled1, st, none, .ok ()⟩
    else
      let r := materializeSkillsToWorkspace skills st
      ⟨enabled1, r.1, some skills, r.2.map fun _ => ()⟩

/-! ## Skill discovery

`discoverSkills` walks a checkout looking for directories that directly
contain the `SKILL.md` sentinel.  The checkout is a tree of directories;
each carries whether it is readable (an unreadable directory makes
`fs.readdir` throw) and whether the sentinel file is directly inside it
(the `exists` probe swallows its own errors, so it is a plain flag).
`findSkillDirectories` is the source's breadth-first queue loop; its fuel
argument is only a structural-recursion bound and `treeWeight` fuel always
suffices, since every dequeued entry either consumes a whole subtree or
trades one node for its children.
-/

/-- A directory tree in a checkout. -/
inductive FsTree where
  | dir (readable : Bool) (hasSentinel : Bool) (children : List (String × FsTree))

/-- Number of directories in a tree, used as breadth-first fuel. -/
def treeWeight : FsTree → Nat
  | .dir _ _ children => 1 + childWeight children
where childWeight : List (String × FsTree) → Nat
  | [] => 0
  | (_, t) :: rest => treeWeight t + childWeight rest

/-- The queue loop of `findSkillDirectories`: a dequeued directory with the
sentinel is recorded and not descended; otherwise its entries are read
(throwing when it is unreadable — the source has no try/catch here) and its
subdirectories are appended to the queue.  (`.git` and `node_modules`
pruning acts on child names; such children are simply not included in the
modelled trees, which never affects the claims at hand.)  Each queue entry
carries its path segments below the start directory. -/
def bfsSkillDirs : Nat → List (List String × FsTree) →
    Except Unit (List (List String × FsTree))
  | _, [] => .ok []
  | 0, _ :: _ => .ok []
  | n + 1, (p, t) :: rest =>
    match t with
    | .dir readable hasSentinel children =>
      if hasSentinel then
        (bfsSkillDirs n rest).map fun found => (p, t) :: found
      else if readable then
        bfsSkillDirs n (rest ++ children.map fun c => (p ++ [c.1], c.2))
      else .error ()

/-- `findSkillDirectories`: breadth-first search from a start directory. -/
def findSkillDirectories (startDir : FsTree) :
    Except Unit (List (List String × FsTree)) :=
  bfsSkillDirs (treeWeight startDir) [([], startDir)]

/-- Look a child directory up by name. -/
def childNamed (name : String) : List (String × FsTree) → Option FsTree
  | [] => none
  | (n, t) :: rest => if n = name then some t else childNamed name rest

/-- Resolve a relative path (as segments) inside a tree. -/
def resolvePath (t : FsTree) : List String → Option FsTree
  | [] => some t
  | s :: rest =>
    match t with
    | .dir _ _ children =>
      match childNamed s children with
      | none => none
      | some c => resolvePath c rest

/-- De-duplicate discovered skills by id.  The source folds them into a
`Map` keyed by id, which keeps the first occurrence's key position; two
occurrences of one id come from the same directory via overlapping roots
and are structurally identical, so keeping the first is the `Map`'s
effect. -/
def dedupById (items : List SkillItem) : List SkillItem :=
  go items []
where go : List SkillItem → List String → List SkillItem
  | [], _ => []
  | s :: rest, seen =>
    if seen.contains s.id then go rest seen else s :: go rest (s.id :: seen)

/-- Stable insertion into a slug-sorted list (slug order stands in for
`localeCompare`, which agrees with code-point order on the ASCII slugs in
play). -/
def insertBySlug (s : SkillItem) : List SkillItem → List SkillItem
  | [] => [s]
  | x :: xs => if lexLeStr s.slug x.slug then s :: x :: xs else x :: insertBySlug s xs

/-- `items.sort((a, b) => a.slug.localeCompare(b.slug))`. -/
def sortBySlug (items : List SkillItem) : List SkillItem :=
  items.foldr insertBySlug []

/-- The per-candidate-root scan loop inside `discoverSkills`: a candidate
root that does not exist is skipped; one that exists is searched, and a
read failure inside it propagates. -/
def discoverAtRoots (rootTree : FsTree) (rootPath sourceId : String) :
    List (List String) → Except Unit (List SkillItem)
  | [] => .ok []
  | segs :: rest =>
    match resolvePath rootTree segs with
    | none => discoverAtRoots rootTree rootPath sourceId rest
    | some candidate =>
      match findSkillDirectories candidate with
      | .error e => .error e
      | .ok found =>
        let items := found.map fun f =>
          let fullSegs := segs ++ f.1
          let relativePath := joinSlash fullSegs
          ({ id := sourceId ++ ":" ++ relativePath, sourceId := sourceId,
             slug := fullSegs.getLastD "", relativePath := relativePath,
             absolutePath := rootPath ++ "/" ++ relativePath } : SkillItem)
        (discoverAtRoots rootTree rootPath sourceId rest).map fun more =>
          items ++ more

/-- `discoverSkills`: a missing checkout root yields the empty list; with a
sub-path hint only that candidate root is scanned, otherwise the two
conventional roots `.github/skills` and `skills` are both scanned; results
are de-duplicated by id and sorted by slug.  The checkout root is `none`
when the path does not exist. -/
def discoverSkills (rootPath : String) (root : Option FsTree) (sourceId : String)
    (skillsRootPath : Option (List String)) : Except Unit (List SkillItem) :=
  match root with
  | none => .ok []
  | some rootTree =>
    let candidateRoots : List (List String) :=
      match skillsRootPath with
      | some hint => [hint]
      | none => [[".github", "skills"], ["skills"]]
    (discoverAtRoots rootTree rootPath sourceId candidateRoots).map fun results =>
      sortBySlug (dedupById results)

/-! ## Reference resolution

`parseGitHubSourceInput` takes the raw user string.  The model represents
inputs that parse as `https` URLs: the raw text plus the parsed host, the
`pathname.split("/")` pieces (empty pieces from the leading slash, doubled
slashes or a trailing slash included; percent-decoding is assumed already
applied, and no port, userinfo, query or fragment text sits inside the
segments), and whether the raw text carries a query string or fragment
(which makes the bare-URL regex fail while leaving `pathname` unchanged).
The bare SSH regex `git@github.com:...` can never match text that parsed
as an `https` URL, so only the bare HTTPS regex appears.  Every throw
inside the function's `try` block is caught and replaced by the single
user-facing invalid-reference error, modelled as `.error ()`.
-/

/-- A user-supplied reference that parses as an `https` URL. -/
structure UrlModel where
  raw : String
  host : String
  pathSegs : List String
  hasQueryText : Bool
deriving DecidableEq, Repr

/-- One `[\w.-]+` regex segment (an optional `.git` suffix adds nothing,
since `.` and letters already sit in the class). -/
def wordDotDash (s : String) : Bool :=
  s ≠ "" && s.toList.all fun c => c.isAlphanum || c = '_' || c = '.' || c = '-'

/-- The bare HTTPS regex
`^https:\/\/github\.com\/[\w.-]+\/[\w.-]+(?:\.git)?$` evaluated on the
parsed form: host `github.com`, exactly the path `/owner/repo` with
word-class segments, and no query or fragment text. -/
def matchesBareHttpsPattern (u : UrlModel) : Bool :=
  u.host = "github.com" && !u.hasQueryText &&
  (match u.pathSegs with
   | ["", o, r] => wordDotDash o && wordDotDash r
   | _ => false)

/-- Case-insensitive test for a `.git` suffix. -/
def endsWithDotGitCI (s : String) : Bool :=
  seqStartsAt ['t', 'i', 'g', '.'] ((s.toList.map Char.toLower).reverse)

/-- `repo.replace(/\.git$/i, "")`. -/
def stripDotGit (s : String) : String :=
  if endsWithDotGitCI s then String.mk (s.toList.take (s.toList.length - 4))
  else s

/-- `joined.replace(/^\/+|\/+$/g, "")`: strip leading and trailing slash
runs. -/
def stripSlashes (s : String) : String :=
  String.mk (((s.toList.dropWhile (· = '/')).reverse.dropWhile (· = '/')).reverse)

/-- The canonical reference triple returned by `parseGitHubSourceInput`. -/
structure ParsedSource where
  canonicalRepoUri : String
  branch : Option String
  skillsRootPath : Option String
deriving DecidableEq, Repr

/-- `parseGitHubSourceInput`: bare repo URLs pass through verbatim; a tree
URL with at least one folder segment after the branch yields branch and
sub-path; a two-segment path yields the canonical repo URL; everything
else — including a tree URL whose path stops at the branch — fails with
the invalid-reference error. -/
def parseGitHubSourceInput (u : UrlModel) : Except Unit ParsedSource :=
  if matchesBareHttpsPattern u then .ok ⟨u.raw, none, none⟩
  else if u.host ≠ "github.com" then .error ()
  else
    let parts := u.pathSegs.filter (· ≠ "")
    if parts.length < 2 then .error ()
    else
      let owner := parts.getD 0 ""
      let repo := stripDotGit (parts.getD 1 "")
      let canonicalRepoUri := "https://github.com/" ++ owner ++ "/" ++ repo
      if 5 ≤ parts.length && parts.getD 2 "" = "tree" then
        let branch := parts.getD 3 ""
        let skillsRootPath := stripSlashes (joinSlash (parts.drop 4))
        if skillsRootPath = "" then .error ()
        else .ok ⟨canonicalRepoUri, some branch, some skillsRootPath⟩
      else if parts.length = 2 then .ok ⟨canonicalRepoUri, none, none⟩
      else .error ()

/-- `toGitHubSshUri`: derive the SSH form of a `github.com` HTTPS URL. -/
def toGitHubSshUri (u : UrlModel) : Option String :=
  if u.host ≠ "github.com" then none
  else
    let parts := u.pathSegs.filter (· ≠ "")
    if parts.length < 2 then none
    else
      some ("git@github.com:" ++ parts.getD 0 "" ++ "/" ++
        stripDotGit (parts.getD 1 "") ++ ".git")

/-- `getGitHubOwner`: the owner segment of a `github.com` URL. -/
def getGitHubOwner (u : UrlModel) : Option String :=
  if u.host ≠ "github.com" then none
  else
    let parts := u.pathSegs.filter (· ≠ "")
    if parts.length < 2 then none else some (parts.getD 0 "")

/-- `isGitHubRepoUri` on a parsed `https` URL: hostname `github.com` (the
`git@` regex arm of the source cannot fire on such input). -/
def isGitHubRepoUri (u : UrlModel) : Bool :=
  u.host = "github.com"

/-! ## Git invocation with authentication fallback

`runGitWithAuthFallback` drives up to three git subprocess attempts (plain,
default-session token header, re-picked-account token header) and
`cloneRepoWithFallback` adds a single SSH retry for clone.  The model takes
the outcome of each potential attempt as an explicit environment: `git`
either succeeds or fails with a stderr text, and each token acquisition
either yields a token or throws.  Errors are the user-facing message
strings the source builds, so that the `message.includes("authentication
failed")` test of the SSH fallback is evaluated on the real text.  The
attempted-tier list is instrumentation the source does not compute.
-/

/-- Outcome of one git subprocess invocation. -/
inductive GitOutcome where
  | success
  | failure (stderr : String)
deriving DecidableEq, Repr

/-- The git action being run. -/
inductive GitAction where
  | cloneAct
  | pullAct
  | checkoutAct
deriving DecidableEq, Repr

/-- `extractGitStderr`: split stderr into lines, trim each, drop empties,
join with single spaces. -/
def extractGitStderr (stderr : String) : String :=
  String.mk (joinWithSpace (((splitChars '\n' stderr.toList).map trimChars).filter
    (· ≠ [])))
where joinWithSpace : List (List Char) → List Char
  | [] => []
  | [g] => g
  | g :: gs => g ++ ' ' :: joinWithSpace gs

/-- `isAuthenticationFailure`: the normalized, lowercased stderr is
non-empty and mentions one of the four known transport auth phrases. -/
def isAuthenticationFailure (stderr : String) : Bool :=
  let message := lowerStr (extractGitStderr stderr)
  if message = "" then false
  else
    includesStr message "could not read username" ||
    includesStr message "authentication failed" ||
    includesStr message "repository not found" ||
    includesStr message "terminal prompts disabled"

/-- The action label interpolated into git error messages. -/
def actionLabel : GitAction → String
  | .cloneAct => "clone"
  | .pullAct => "pull"
  | .checkoutAct => "switch branches"

/-- `buildGitError`: the user-facing message for a failed git command. -/
def buildGitError (action : GitAction) (sourceUri : String) (stderr : String) :
    String :=
  if isAuthenticationFailure stderr then
    "Unable to " ++ actionLabel action ++ " " ++ sourceUri ++
      ". Authentication failed. Sign in to GitHub in VS Code and ensure your token is authorized for this repo (including org SSO if required), or use the SSH repo URL (git@github.com:owner/repo.git)."
  else if extractGitStderr stderr ≠ "" then
    "Unable to " ++ actionLabel action ++ " " ++ sourceUri ++ ". " ++
      extractGitStderr stderr
  else
    "Unable to " ++ actionLabel action ++ " " ++ sourceUri ++ "."

/-- The message `getGitHubAccessToken` throws when no session token can be
obtained. -/
def tokenRequiredMessage : String :=
  "GitHub authentication is required for this source. Sign in with an account that has repo access and try again."

/-- The authentication tiers a command may run under. -/
inductive AuthTier where
  | ambient
  | defaultToken
  | pickedToken
  | sshKey
deriving DecidableEq, Repr

/-- Environment of per-attempt outcomes for the token chain. -/
structure AuthEnv where
  ambient : GitOutcome
  defaultTokenAvailable : Bool
  withDefaultToken : GitOutcome
  pickedTokenAvailable : Bool
  withPickedToken : GitOutcome
deriving DecidableEq, Repr

/-- `runGitWithAuthFallback`: plain attempt; on a GitHub-URI auth-classified
failure, retry with the default-session token; on another auth-classified
failure, retry once with a freshly picked account's token; any
unrecognized failure, or the final failure, aborts with the built error.
Returns the tiers actually attempted and the outcome. -/
def runGitWithAuthFallback (env : AuthEnv) (isGitHub : Bool)
    (sourceUri : String) (action : GitAction) :
    List AuthTier × Except String Unit :=
  match env.ambient with
  | .success => ([.ambient], .ok ())
  | .failure s1 =>
    if !(isGitHub && isAuthenticationFailure s1) then
      ([.ambient], .error (buildGitError action sourceUri s1))
    else if !env.defaultTokenAvailable then
      ([.ambient], .error tokenRequiredMessage)
    else
      match env.withDefaultToken with
      | .success => ([.ambient, .defaultToken], .ok ())
      | .failure s2 =>
        if !isAuthenticationFailure s2 then
          ([.ambient, .defaultToken], .error (buildGitError action sourceUri s2))
        else if !env.pickedTokenAvailable then
          ([.ambient, .defaultToken], .error tokenRequiredMessage)
        else
          match env.withPickedToken with
          | .success => ([.ambient, .defaultToken, .pickedToken], .ok ())
          | .failure s3 =>
            ([.ambient, .defaultToken, .pickedToken],
             .error (buildGitError action sourceUri s3))

/-- Environment for a clone: the token chain plus the outcome of the
single potential SSH attempt. -/
structure CloneEnv where
  httpsChain : AuthEnv
  sshOutcome : GitOutcome
deriving DecidableEq, Repr

/-- `buildCombinedCloneAuthError`: both failure causes plus the
organization single-sign-on hint when the owner is known. -/
def buildCombinedCloneAuthError (u : UrlModel)
    (httpsMessage sshMessage : String) : String :=
  let ssoHint :=
    match getGitHubOwner u with
    | some owner =>
      " If this is a private org repo, authorize your GitHub token for org SSO: https://github.com/orgs/" ++
        owner ++ "/sso"
    | none => ""
  "Unable to clone " ++ u.raw ++
    ". HTTPS authentication and SSH fallback both failed. " ++ httpsMessage ++
    " SSH fallback error: " ++ sshMessage ++
    " Sign in to GitHub in VS Code with repo access and" ++ ssoHint ++
    " or configure a GitHub SSH key and retry with an SSH repo URL."

/-- `cloneRepoWithFallback`: run the token chain over HTTPS; when it fails
with a message mentioning `authentication failed` and an SSH form of the
URL derives, make exactly one plain SSH attempt, combining both causes on
its failure; otherwise rethrow the chain's error. -/
def cloneRepoWithFallback (env : CloneEnv) (u : UrlModel) :
    List AuthTier × Except String Unit :=
  let chain := runGitWithAuthFallback env.httpsChain (isGitHubRepoUri u) u.raw
    .cloneAct
  match chain.2 with
  | .ok _ => chain
  | .error httpsError =>
    let errorMessage := lowerStr httpsError
    let sshUri := toGitHubSshUri u
    let authFailure := includesStr errorMessage "authentication failed"
    match sshUri with
    | none => chain
    | some su =>
      if !authFailure then chain
      else
        match env.sshOutcome with
        | .success => (chain.1 ++ [.sshKey], .ok ())
        | .failure s4 =>
          (chain.1 ++ [.sshKey],
           .error (buildCombinedCloneAuthError u httpsError
             (buildGitError .cloneAct su s4)))

/-! ## Library lemmas about the JavaScript-style helpers -/

theorem mem_insertSorted {x s : String} {l : List String} :
    x ∈ insertSorted s l ↔ x = s ∨ x ∈ l := by
  induction l with
  | nil => simp [insertSorted]
  | cons y ys ih =>
    by_cases h : lexLeStr s y = true
    · simp [insertSorted, h]
    · simp only [insertSorted, h, if_false, Bool.false_eq_true, List.mem_cons, ih]
      tauto

theorem insertSorted_perm (s : String) (l : List String) :
    List.Perm (insertSorted s l) (s :: l) := by
  induction l with
  | nil => simp [insertSorted]
  | cons y ys ih =>
    by_cases h : lexLeStr s y = true
    · simp [insertSorted, h]
    · simp only [insertSorted, h, if_false, Bool.false_eq_true]
      exact (ih.cons y).trans (List.Perm.swap s y ys)

theorem sortStrings_perm (l : List String) : List.Perm (sortStrings l) l := by
  induction l with
  | nil => rfl
  | cons x xs ih =>
    exact ((insertSorted_perm x (sortStrings xs)).trans (ih.cons x))

theorem mem_sortStrings {x : String} {l : List String} :
    x ∈ sortStrings l ↔ x ∈ l :=
  (sortStrings_perm l).mem_iff

theorem nodup_sortStrings {l : List String} (h : l.Nodup) :
    (sortStrings l).Nodup :=
  (sortStrings_perm l).nodup_iff.mpr h

theorem dedupGo_cons_mem {y : String} {ys seen : List String} (h : y ∈ seen) :
    dedupKeepFirst.go (y :: ys) seen = dedupKeepFirst.go ys seen := by
  simp [dedupKeepFirst.go, List.elem_iff, h]

theorem dedupGo_cons_not_mem {y : String} {ys seen : List String} (h : y ∉ seen) :
    dedupKeepFirst.go (y :: ys) seen = y :: dedupKeepFirst.go ys (y :: seen) := by
  simp [dedupKeepFirst.go, List.elem_iff, h]

theorem mem_dedupGo {x : String} {l seen : List String} :
    x ∈ dedupKeepFirst.go l seen ↔ x ∈ l ∧ x ∉ seen := by
  induction l generalizing seen with
  | nil => simp [dedupKeepFirst.go]
  | cons y ys ih =>
    by_cases h : y ∈ seen
    · rw [dedupGo_cons_mem h, ih]
      simp only [List.mem_cons]
      constructor
      · rintro ⟨hx, hs⟩
        exact ⟨Or.inr hx, hs⟩
      · rintro ⟨rfl | hx, hs⟩
        · exact absurd h hs
        · exact ⟨hx, hs⟩
    · rw [dedupGo_cons_not_mem h]
      simp only [List.mem_cons, ih]
      constructor
      · rintro (rfl | ⟨hx, hs⟩)
        · exact ⟨Or.inl rfl, h⟩
        · simp only [List.mem_cons, not_or] at hs
          exact ⟨Or.inr hx, hs.2⟩
      · rintro ⟨rfl | hx, hs⟩
        · exact Or.inl rfl
        · by_cases hxy : x = y
          · exact Or.inl hxy
          · exact Or.inr ⟨hx, by simp [hxy, hs]⟩

theorem mem_dedupKeepFirst {x : String} {l : List String} :
    x ∈ dedupKeepFirst l ↔ x ∈ l := by
  simp [dedupKeepFirst, mem_dedupGo]

theorem nodup_dedupGo (l : List String) (seen : List String) :
    (dedupKeepFirst.go l seen).Nodup := by
  induction l generalizing seen with
  | nil => simp [dedupKeepFirst.go]
  | cons y ys ih =>
    by_cases h : y ∈ seen
    · rw [dedupGo_cons_mem h]
      exact ih seen
    · rw [dedupGo_cons_not_mem h]
      refine List.nodup_cons.mpr ⟨fun hy => ?_, ih (y :: seen)⟩
      have := (mem_dedupGo.mp hy).2
      simp at this

theorem nodup_dedupKeepFirst (l : List String) : (dedupKeepFirst l).Nodup :=
  nodup_dedupGo l []

theorem charToNat_inj {a b : Char} (h : a.toNat = b.toNat) : a = b :=
  Char.ext (UInt32.ext h)

theorem lexLeChars_total (a b : List Char) :
    lexLeChars a b = true ∨ lexLeChars b a = true := by
  induction a generalizing b with
  | nil => exact Or.inl rfl
  | cons x xs ih =>
    cases b with
    | nil => exact Or.inr rfl
    | cons y ys =>
      by_cases h : x = y
      · subst h
        simpa [lexLeChars] using ih ys
      · have hne : x.toNat ≠ y.toNat := fun hc => h (charToNat_inj hc)
        rcases Nat.lt_or_ge x.toNat y.toNat with hlt | hge
        · exact Or.inl (by simp [lexLeChars, h, hlt])
        · have hgt : y.toNat < x.toNat := lt_of_le_of_ne hge (Ne.symm hne)
          exact Or.inr (by simp [lexLeChars, Ne.symm h, hgt])

theorem lexLeChars_trans {a b c : List Char} (h1 : lexLeChars a b = true)
    (h2 : lexLeChars b c = true) : lexLeChars a c = true := by
  induction a generalizing b c with
  | nil => rfl
  | cons x xs ih =>
    cases b with
    | nil => simp [lexLeChars] at h1
    | cons y ys =>
      cases c with
      | nil => simp [lexLeChars] at h2
      | cons z zs =>
        by_cases hxy : x = y
        · subst hxy
          by_cases hxz : x = z
          · subst hxz
            simp only [lexLeChars, if_pos rfl] at h1 h2 ⊢
            exact ih h1 h2
          · simp only [lexLeChars, if_pos rfl] at h1
            simpa [lexLeChars, hxz] using h2
        · by_cases hyz : y = z
          · subst hyz
            simpa [lexLeChars, hxy] using h1
          · simp only [lexLeChars, hxy, if_false, decide_eq_true_eq] at h1
            simp only [lexLeChars, hyz, if_false, decide_eq_true_eq] at h2
            have hlt := Nat.lt_trans h1 h2
            have hxz : x ≠ z := fun hc => by
              subst hc
              exact Nat.lt_irrefl _ hlt
            simp [lexLeChars, hxz, hlt]

theorem lexLeStr_total (a b : String) :
    lexLeStr a b = true ∨ lexLeStr b a = true :=
  lexLeChars_total a.toList b.toList

theorem lexLeStr_trans {a b c : String} (h1 : lexLeStr a b = true)
    (h2 : lexLeStr b c = true) : lexLeStr a c = true :=
  lexLeChars_trans h1 h2

/-- Sortedness in the code-point order. -/
abbrev sortedLe (l : List String) : Prop :=
  l.Pairwise fun a b => lexLeStr a b = true

theorem sortedLe_insertSorted {s : String} {l : List String} (h : sortedLe l) :
    sortedLe (insertSorted s l) := by
  induction l with
  | nil => simp [insertSorted, sortedLe]
  | cons y ys ih =>
    rcases List.pairwise_cons.mp h with ⟨hy, hys⟩
    by_cases hle : lexLeStr s y = true
    · have he : insertSorted s (y :: ys) = s :: y :: ys := by
        simp [insertSorted, hle]
      rw [he]
      refine List.pairwise_cons.mpr ⟨?_, h⟩
      intro z hz
      rcases List.mem_cons.mp hz with rfl | hz
      · exact hle
      · exact lexLeStr_trans hle (hy z hz)
    · have he : insertSorted s (y :: ys) = y :: insertSorted s ys := by
        simp [insertSorted, hle]
      rw [he]
      have hys' := ih hys
      refine List.pairwise_cons.mpr ⟨?_, hys'⟩
      intro z hz
      rcases mem_insertSorted.mp hz with rfl | hz
      · rcases lexLeStr_total z y with hzy | hyz
        · exact absurd hzy hle
        · exact hyz
      · exact hy z hz

theorem sortedLe_sortStrings (l : List String) : sortedLe (sortStrings l) := by
  induction l with
  | nil => simp [sortStrings, sortedLe]
  | cons x xs ih => exact sortedLe_insertSorted ih

theorem sortStrings_of_sorted {l : List String} (h : sortedLe l) :
    sortStrings l = l := by
  induction l with
  | nil => rfl
  | cons x xs ih =>
    rcases List.pairwise_cons.mp h with ⟨hx, hxs⟩
    have : sortStrings (x :: xs) = insertSorted x (sortStrings xs) := rfl
    rw [this, ih hxs]
    cases xs with
    | nil => rfl
    | cons y ys => simp [insertSorted, hx y (List.mem_cons_self y ys)]

theorem dedupGo_of_nodup {l seen : List String} (h : l.Nodup)
    (hs : ∀ x ∈ l, x ∉ seen) : dedupKeepFirst.go l seen = l := by
  induction l generalizing seen with
  | nil => rfl
  | cons y ys ih =>
    rcases List.nodup_cons.mp h with ⟨hy, hys⟩
    rw [dedupGo_cons_not_mem (hs y (List.mem_cons_self y ys))]
    congr 1
    refine ih hys ?_
    intro x hx
    simp only [List.mem_cons, not_or]
    exact ⟨fun hc => hy (hc ▸ hx), hs x (List.mem_cons_of_mem y hx)⟩

theorem dedupKeepFirst_of_nodup {l : List String} (h : l.Nodup) :
    dedupKeepFirst l = l :=
  dedupGo_of_nodup h (by simp)

/-- A canonical folder list: sorted, duplicate-free, without the empty
string (exactly what `loadManifest` returns for each set). -/
def canonList (l : List String) : Prop :=
  sortedLe l ∧ l.Nodup ∧ "" ∉ l

/-! ## Facts about the manifest store -/

theorem jStrings_cons_jstr_empty (es : List JElem) :
    jStrings (.jstr "" :: es) = jStrings es := by
  simp [jStrings, List.filterMap_cons]

theorem jStrings_cons_jstr_ne {s : String} (es : List JElem) (h : s ≠ "") :
    jStrings (.jstr s :: es) = s :: jStrings es := by
  simp [jStrings, List.filterMap_cons, h]

theorem jStrings_cons_other (t : Nat) (es : List JElem) :
    jStrings (.other t :: es) = jStrings es := by
  simp [jStrings, List.filterMap_cons]

theorem jStrings_map_jstr (l : List String) :
    jStrings (l.map .jstr) = l.filter (· ≠ "") := by
  induction l with
  | nil => rfl
  | cons x xs ih =>
    rw [List.map_cons, List.filter_cons]
    by_cases h : x = ""
    · subst h
      rw [jStrings_cons_jstr_empty, ih]
      simp
    · rw [jStrings_cons_jstr_ne _ h, ih]
      simp [h]

theorem mem_jStrings_ne_empty {x : String} {elems : List JElem}
    (h : x ∈ jStrings elems) : x ≠ "" := by
  induction elems with
  | nil => simp [jStrings] at h
  | cons e es ih =>
    cases e with
    | jstr s =>
      by_cases hs : s = ""
      · subst hs
        rw [jStrings_cons_jstr_empty] at h
        exact ih h
      · rw [jStrings_cons_jstr_ne _ hs] at h
        rcases List.mem_cons.mp h with rfl | hh
        · exact hs
        · exact ih hh
    | other t =>
      rw [jStrings_cons_other] at h
      exact ih h

theorem canonList_sort_dedup_jStrings (elems : List JElem) :
    canonList (sortStrings (dedupKeepFirst (jStrings elems))) := by
  refine ⟨sortedLe_sortStrings _, nodup_sortStrings (nodup_dedupKeepFirst _), ?_⟩
  intro hmem
  have := mem_dedupKeepFirst.mp (mem_sortStrings.mp hmem)
  exact mem_jStrings_ne_empty this rfl

theorem canonList_nil : canonList [] := by
  refine ⟨List.Pairwise.nil, List.nodup_nil, ?_⟩
  simp

/-- Each component of any loaded manifest is canonical. -/
theorem loadManifest_canon (file : ManifestFile) :
    canonList (loadManifest file).1.managedFolders ∧
      canonList (loadManifest file).1.manualFolders := by
  cases file with
  | absent => exact ⟨canonList_nil, canonList_nil⟩
  | invalidJson t => exact ⟨canonList_nil, canonList_nil⟩
  | parsed managedField manualField =>
    cases managedField with
    | missing => exact ⟨canonList_nil, canonList_nil⟩
    | notArray t => exact ⟨canonList_nil, canonList_nil⟩
    | array melems =>
      cases manualField with
      | array uelems =>
        exact ⟨canonList_sort_dedup_jStrings melems,
          canonList_sort_dedup_jStrings uelems⟩
      | missing =>
        exact ⟨canonList_sort_dedup_jStrings melems, by
          simpa [loadManifest] using canonList_nil⟩
      | notArray t =>
        exact ⟨canonList_sort_dedup_jStrings melems, by
          simpa [loadManifest] using canonList_nil⟩

theorem canonList_roundtrip {l : List String} (h : canonList l) :
    sortStrings (dedupKeepFirst ((sortStrings (dedupKeepFirst l)).filter
      (· ≠ ""))) = l := by
  rcases h with ⟨hs, hn, he⟩
  rw [dedupKeepFirst_of_nodup hn, sortStrings_of_sorted hs]
  have hf : l.filter (· ≠ "") = l := by
    refine List.filter_eq_self.mpr ?_
    intro a ha
    have hne : a ≠ "" := by
      intro hc
      rw [hc] at ha
      exact he ha
    simpa using hne
  rw [hf, dedupKeepFirst_of_nodup hn, sortStrings_of_sorted hs]

/-- Writing a canonical manifest and loading it back is the identity, with
no migration write. -/
theorem loadManifest_writeManifestFile {m : SkillManifest}
    (ha : canonList m.managedFolders) (hb : canonList m.manualFolders) :
    loadManifest (writeManifestFile m) = (m, none) := by
  cases m with
  | mk managed manual =>
    simp only [writeManifestFile, loadManifest, jStrings_map_jstr]
    rw [canonList_roundtrip ha, canonList_roundtrip hb]

/-- Membership in a loaded-back written manifest (no canonicity needed). -/
theorem mem_loadManifest_writeManifestFile (m : SkillManifest) (x : String) :
    (x ∈ (loadManifest (writeManifestFile m)).1.managedFolders ↔
      x ∈ m.managedFolders ∧ x ≠ "") ∧
    (x ∈ (loadManifest (writeManifestFile m)).1.manualFolders ↔
      x ∈ m.manualFolders ∧ x ≠ "") := by
  cases m with
  | mk managed manual =>
    simp only [writeManifestFile, loadManifest, jStrings_map_jstr]
    constructor
    · rw [mem_sortStrings, mem_dedupKeepFirst, List.mem_filter]
      simp [mem_sortStrings, mem_dedupKeepFirst]
    · rw [mem_sortStrings, mem_dedupKeepFirst, List.mem_filter]
      simp [mem_sortStrings, mem_dedupKeepFirst]

theorem loadManifest_writeManifestFile_snd (m : SkillManifest) :
    (loadManifest (writeManifestFile m)).2 = none := rfl

/-- `sanitizeFolderName` never yields the empty string. -/
theorem sanitizeFolderName_ne_empty (s : String) : sanitizeFolderName s ≠ "" := by
  unfold sanitizeFolderName
  by_cases h :
      String.mk (replaceRuns (fun c => c = '-') '-'
        (replaceRuns (fun c => !isAllowedFolderChar c) '-'
          ((trimChars s.toList).map Char.toLower) false) false) = ""
  · simp only [h, if_pos rfl]
    intro hc
    simpa using congrArg String.toList hc
  · simpa only [if_neg h] using h

/-! ## Disjointness of the manifest sets -/

/-- The manifest invariant: the managed and manual folder sets are
disjoint. -/
def manifestDisjoint (m : SkillManifest) : Prop :=
  ∀ x ∈ m.managedFolders, x ∉ m.manualFolders

theorem manifestDisjoint_loadWrite {m : SkillManifest}
    (h : ∀ x ∈ m.managedFolders, x ∉ m.manualFolders) :
    manifestDisjoint (loadManifest (writeManifestFile m)).1 := by
  intro x hx hy
  have h1 := (mem_loadManifest_writeManifestFile m x).1.mp hx
  have h2 := (mem_loadManifest_writeManifestFile m x).2.mp hy
  exact h x h1.1 h2.1

theorem loadManifest_snd_cases (f : ManifestFile) :
    (loadManifest f).2 = none ∨
      (loadManifest f).2 = some (writeManifestFile (loadManifest f).1) := by
  cases f with
  | absent => exact Or.inl rfl
  | invalidJson t => exact Or.inl rfl
  | parsed mf uf =>
    cases mf with
    | missing => exact Or.inl rfl
    | notArray t => exact Or.inl rfl
    | array es =>
      cases uf with
      | array us => exact Or.inl rfl
      | missing => exact Or.inr rfl
      | notArray t => exact Or.inr rfl

theorem applyMigration_manifestFile (st : DestState) :
    (applyMigration st).manifestFile = st.manifestFile ∨
      (applyMigration st).manifestFile =
        writeManifestFile (loadManifest st.manifestFile).1 := by
  rcases loadManifest_snd_cases st.manifestFile with hc | hc
  · exact Or.inl (by simp only [applyMigration, hc])
  · exact Or.inr (by simp only [applyMigration, hc])

theorem applyMigration_folders (st : DestState) :
    (applyMigration st).folders = st.folders := by
  rcases loadManifest_snd_cases st.manifestFile with hc | hc <;>
    simp only [applyMigration, hc]

theorem applyMigration_rootExists (st : DestState) :
    (applyMigration st).rootExists = st.rootExists := by
  rcases loadManifest_snd_cases st.manifestFile with hc | hc <;>
    simp only [applyMigration, hc]

theorem manifestDisjoint_applyMigration {st : DestState}
    (h : manifestDisjoint (loadManifest st.manifestFile).1) :
    manifestDisjoint (loadManifest (applyMigration st).manifestFile).1 := by
  rcases applyMigration_manifestFile st with hc | hc
  · rw [hc]
    exact h
  · rw [hc]
    exact manifestDisjoint_loadWrite h

theorem disjoint_after_materialize {st : DestState} (skills : List SkillItem)
    (h : manifestDisjoint (loadManifest st.manifestFile).1) :
    manifestDisjoint
      (loadManifest (materializeSkillsToWorkspace skills st).1.manifestFile).1 := by
  unfold materializeSkillsToWorkspace
  cases hA : assertNoFolderNameConflicts
      (skills.map fun skill => (skill, createTargetFolderName skill)) with
  | error e => simpa only [hA] using h
  | ok u =>
    simp only [hA]
    apply manifestDisjoint_loadWrite
    intro x hx hy
    rw [mem_dedupKeepFirst] at hx
    rcases List.mem_map.mp hx with ⟨entry, hentry, hx2⟩
    rw [List.mem_filter] at hentry
    have hcoll : entry.2 ∈ dedupKeepFirst
        (((skills.map fun skill => (skill, createTargetFolderName skill)).map
            Prod.snd).filter
          fun folder =>
            (loadManifest st.manifestFile).1.manualFolders.contains folder) := by
      rw [mem_dedupKeepFirst, List.mem_filter]
      refine ⟨List.mem_map_of_mem Prod.snd hentry.1, ?_⟩
      rw [hx2]
      simpa [List.elem_iff] using hy
    have hnc := hentry.2
    rw [Bool.not_eq_true'] at hnc
    have hctrue : (dedupKeepFirst
        (((skills.map fun skill => (skill, createTargetFolderName skill)).map
            Prod.snd).filter
          fun folder =>
            (loadManifest st.manifestFile).1.manualFolders.contains
              folder)).contains entry.2 = true := List.elem_iff.mpr hcoll
    rw [hnc] at hctrue
    exact Bool.noConfusion hctrue

theorem disjoint_after_markManual (st : DestState) (name : String)
    (h : manifestDisjoint (loadManifest st.manifestFile).1) :
    manifestDisjoint
      (loadManifest (markSkillAsManual name st).manifestFile).1 := by
  simp only [markSkillAsManual]
  apply manifestDisjoint_loadWrite
  intro x hx hy
  rw [List.mem_filter] at hx
  have hxn : x ≠ sanitizeFolderName name := by simpa using hx.2
  by_cases hc :
      (loadManifest st.manifestFile).1.manualFolders.contains
        (sanitizeFolderName name) = true
  · rw [if_pos hc] at hy
    exact h x hx.1 hy
  · rw [if_neg hc] at hy
    rcases List.mem_append.mp hy with hy | hy
    · exact h x hx.1 hy
    · exact hxn (List.mem_singleton.mp hy)

theorem disjoint_after_markManaged (st : DestState) (name : String)
    (h : manifestDisjoint (loadManifest st.manifestFile).1) :
    manifestDisjoint
      (loadManifest (markSkillAsManaged name st).manifestFile).1 := by
  simp only [markSkillAsManaged]
  apply manifestDisjoint_loadWrite
  intro x hx hy
  rw [List.mem_filter] at hy
  have hxn : x ≠ sanitizeFolderName name := by simpa using hy.2
  by_cases hc :
      (loadManifest st.manifestFile).1.managedFolders.contains
        (sanitizeFolderName name) = true
  · rw [if_pos hc] at hx
    exact h x hx hy.1
  · rw [if_neg hc] at hx
    rcases List.mem_append.mp hx with hx | hx
    · exact h x hx hy.1
    · exact hxn (List.mem_singleton.mp hx)

theorem disjoint_after_uninstall (st : DestState) (name : String) (force : Bool)
    (h : manifestDisjoint (loadManifest st.manifestFile).1) :
    manifestDisjoint
      (loadManifest
        (uninstallMaterializedSkill name force st).1.manifestFile).1 := by
  simp only [uninstallMaterializedSkill]
  by_cases hm :
      ((loadManifest st.manifestFile).1.manualFolders.contains
          (sanitizeFolderName name) && !force) = true
  · simp only [hm, if_pos]
    exact @manifestDisjoint_applyMigration { st with rootExists := true } h
  · simp only [hm]
    simp only [Bool.false_eq_true, if_false]
    apply manifestDisjoint_loadWrite
    intro x hx hy
    rw [List.mem_filter] at hx hy
    exact h x hx.1 hy.1

theorem disjoint_after_update (st : DestState) (name : String)
    (skills : List SkillItem)
    (h : manifestDisjoint (loadManifest st.manifestFile).1) :
    manifestDisjoint
      (loadManifest
        (updateManagedMaterializedSkill name skills st).1.manifestFile).1 := by
  simp only [updateManagedMaterializedSkill]
  by_cases hm :
      (loadManifest st.manifestFile).1.manualFolders.contains
        (sanitizeFolderName name) = true
  · simp only [hm, if_pos]
    exact @manifestDisjoint_applyMigration { st with rootExists := true } h
  · simp only [hm, Bool.false_eq_true, if_false]
    cases hf : skills.find? (fun skill =>
        createTargetFolderName skill = sanitizeFolderName name) with
    | none =>
      simp only [hf]
      exact @manifestDisjoint_applyMigration { st with rootExists := true } h
    | some matched =>
      simp only [hf]
      apply manifestDisjoint_loadWrite
      intro x hx hy
      have hnm : sanitizeFolderName name ∉
          (loadManifest st.manifestFile).1.manualFolders := by
        intro hc
        exact hm (by simpa [List.elem_iff] using hc)
      by_cases hc :
          (loadManifest st.manifestFile).1.managedFolders.contains
            (sanitizeFolderName name) = true
      · rw [if_pos hc] at hx
        exact h x hx hy
      · rw [if_neg hc] at hx
        rcases List.mem_append.mp hx with hx | hx
        · exact h x hx hy
        · rw [List.mem_singleton.mp hx] at hy
          exact hnm hy

theorem disjoint_after_reconcile (st : DestState)
    (h : manifestDisjoint (loadManifest st.manifestFile).1) :
    manifestDisjoint
      (loadManifest (reconcileUntrackedSkills st).1.manifestFile).1 := by
  simp only [reconcileUntrackedSkills]
  by_cases hroot : st.rootExists = true
  · simp only [hroot, Bool.not_true, Bool.false_eq_true, if_false]
    by_cases hch : 0 <
        ((loadManifest st.manifestFile).1.manualFolders.length -
            ((loadManifest st.manifestFile).1.manualFolders.filter fun f =>
              (st.folders.map Prod.fst).contains f).length +
          ((loadManifest st.manifestFile).1.managedFolders.length -
            ((loadManifest st.manifestFile).1.managedFolders.filter fun f =>
              (st.folders.map Prod.fst).contains f).length)) +
        (st.folders.filterMap fun entry =>
          if (!((((loadManifest st.manifestFile).1.managedFolders.filter fun f =>
                  (st.folders.map Prod.fst).contains f) ++
                ((loadManifest st.manifestFile).1.manualFolders.filter fun f =>
                  (st.folders.map Prod.fst).contains f)).contains entry.1) &&
              contentHasSentinel entry.2) = true then
            some entry.1
          else none).length
    · rw [if_pos hch]
      apply manifestDisjoint_loadWrite
      intro x hx hy
      rw [List.mem_filter] at hx
      rcases List.mem_append.mp hy with hy | hy
      · rw [List.mem_filter] at hy
        exact h x hx.1 hy.1
      · rcases List.mem_filterMap.mp hy with ⟨entry, hentry, hcond⟩
        by_cases hcnd : (!((((loadManifest st.manifestFile).1.managedFolders.filter
                fun f => (st.folders.map Prod.fst).contains f) ++
              ((loadManifest st.manifestFile).1.manualFolders.filter fun f =>
                (st.folders.map Prod.fst).contains f)).contains entry.1) &&
            contentHasSentinel entry.2) = true
        · rw [if_pos hcnd] at hcond
          have hxe : entry.1 = x := Option.some.inj hcond
          have htr := (Bool.and_eq_true_iff.mp hcnd).1
          rw [Bool.not_eq_true'] at htr
          have : x ∈ ((loadManifest st.manifestFile).1.managedFolders.filter
                fun f => (st.folders.map Prod.fst).contains f) ++
              ((loadManifest st.manifestFile).1.manualFolders.filter fun f =>
                (st.folders.map Prod.fst).contains f) :=
            List.mem_append.mpr (Or.inl (List.mem_filter.mpr ⟨hx.1, hx.2⟩))
          rw [← hxe] at this
          have hctrue : ((((loadManifest st.manifestFile).1.managedFolders.filter
                fun f => (st.folders.map Prod.fst).contains f) ++
              ((loadManifest st.manifestFile).1.manualFolders.filter fun f =>
                (st.folders.map Prod.fst).contains f)).contains entry.1) = true :=
            List.elem_iff.mpr this
          rw [htr] at hctrue
          exact Bool.noConfusion hctrue
        · rw [if_neg hcnd] at hcond
          exact Option.noConfusion hcond
    · rw [if_neg hch]
      exact manifestDisjoint_applyMigration h
  · have hroot' : st.rootExists = false := by
      simpa using hroot
    simp only [hroot', Bool.not_false, if_pos]
    exact h

instance (m : SkillManifest) : Decidable (manifestDisjoint m) :=
  inferInstanceAs (Decidable (∀ x ∈ m.managedFolders, x ∉ m.manualFolders))

instance (o : OverlayState) : Decidable (overlayInvariant o) :=
  inferInstanceAs (Decidable (∀ id ∈ o.workspaceEnabled, id ∉ o.frozenSkills))

/-! ## Claim theorems -/

/-- C3: every manifest-mutating operation (materialize, mark-as-manual,
mark-as-managed, uninstall, update-managed, reconcile-untracked) maps a
state whose loaded manifest has disjoint managed/manual sets to a state
whose persisted manifest again has disjoint managed/manual sets, on both
the normal and the throwing paths. -/
theorem manifest_mutators_preserve_disjointness (st : DestState)
    (h : manifestDisjoint (loadManifest st.manifestFile).1) :
    (∀ skills, manifestDisjoint
      (loadManifest (materializeSkillsToWorkspace skills st).1.manifestFile).1) ∧
    (∀ name, manifestDisjoint
      (loadManifest (markSkillAsManual name st).manifestFile).1) ∧
    (∀ name, manifestDisjoint
      (loadManifest (markSkillAsManaged name st).manifestFile).1) ∧
    (∀ name force, manifestDisjoint
      (loadManifest
        (uninstallMaterializedSkill name force st).1.manifestFile).1) ∧
    (∀ name skills, manifestDisjoint
      (loadManifest
        (updateManagedMaterializedSkill name skills st).1.manifestFile).1) ∧
    manifestDisjoint
      (loadManifest (reconcileUntrackedSkills st).1.manifestFile).1 :=
  ⟨fun skills => disjoint_after_materialize skills h,
   fun name => disjoint_after_markManual st name h,
   fun name => disjoint_after_markManaged st name h,
   fun name force => disjoint_after_uninstall st name force h,
   fun name skills => disjoint_after_update st name skills h,
   disjoint_after_reconcile st h⟩

/-- Witness for C3 at a concrete state. -/
theorem manifest_mutators_preserve_disjointness_witness :
    manifestDisjoint
      (loadManifest (markSkillAsManual "Alpha"
        ⟨false, [], ManifestFile.parsed
          (.array [.jstr "alpha", .jstr "beta"])
          (.array [.jstr "gamma"])⟩).manifestFile).1 :=
  (manifest_mutators_preserve_disjointness
    ⟨false, [], ManifestFile.parsed (.array [.jstr "alpha", .jstr "beta"])
      (.array [.jstr "gamma"])⟩ (by decide)).2.1 "Alpha"

/-- C9: loading a parsed manifest whose `managedFolders` is an array but
whose `manualFolders` is absent (or not an array) yields `manualFolders =
[]` and rewrites the file once, in canonical form, to the returned
manifest; an absent file, unparseable JSON, or a non-array
`managedFolders` yields the empty manifest with no throw and no
rewrite. -/
theorem loadManifest_migration_and_tolerance :
    (∀ melems : List JElem,
      (loadManifest (.parsed (.array melems) .missing)).1.manualFolders = [] ∧
      (loadManifest (.parsed (.array melems) .missing)).2 =
        some (writeManifestFile
          (loadManifest (.parsed (.array melems) .missing)).1) ∧
      ∀ t : Nat,
        (loadManifest
          (.parsed (.array melems) (.notArray t))).1.manualFolders = [] ∧
        (loadManifest (.parsed (.array melems) (.notArray t))).2 =
          some (writeManifestFile
            (loadManifest (.parsed (.array melems) (.notArray t))).1)) ∧
    loadManifest .absent = (⟨[], []⟩, none) ∧
    (∀ t : Nat, loadManifest (.invalidJson t) = (⟨[], []⟩, none)) ∧
    (∀ mf : JField, loadManifest (.parsed .missing mf) = (⟨[], []⟩, none)) ∧
    (∀ (t : Nat) (mf : JField),
      loadManifest (.parsed (.notArray t) mf) = (⟨[], []⟩, none)) :=
  ⟨fun _ => ⟨rfl, rfl, fun _ => ⟨rfl, rfl⟩⟩, rfl, fun _ => rfl,
   fun _ => rfl, fun _ _ => rfl⟩

/-- C1: the frozen-skill invariant is violated by the code.  Starting from
a state satisfying the invariant (nothing enabled, one frozen skill), the
`updateManagedSkill` command — updating a managed folder whose only source
match is that frozen skill — persists the frozen id into
`workspaceEnabled`, with no frozen check and no subsequent sync, so the id
is both enabled and frozen at rest. -/
theorem updateManagedSkill_enables_frozen_skill :
    overlayInvariant ⟨[], [], ["abc123:skills/alpha"]⟩ ∧
    (updateManagedSkillCommand "alpha"
        [⟨"abc123:skills/alpha", "abc123", "alpha", "skills/alpha",
          "/cache/abc123/skills/alpha"⟩]
        (fun _ => none)
        ⟨[], [], ["abc123:skills/alpha"]⟩).workspaceEnabled
      = ["abc123:skills/alpha"] ∧
    ¬ overlayInvariant (updateManagedSkillCommand "alpha"
        [⟨"abc123:skills/alpha", "abc123", "alpha", "skills/alpha",
          "/cache/abc123/skills/alpha"⟩]
        (fun _ => none)
        ⟨[], [], ["abc123:skills/alpha"]⟩) := by
  refine ⟨by decide, by decide, by decide⟩

/-! ## The empty materialization -/

theorem removeFolder_eq_filter (name : String)
    (fs : List (String × FolderContent)) :
    removeFolder name fs = fs.filter fun p => p.1 ≠ name := rfl

theorem foldl_removeFolder (names : List String)
    (fs : List (String × FolderContent)) :
    names.foldl (fun acc n => removeFolder n acc) fs =
      fs.filter fun p => !names.contains p.1 := by
  induction names generalizing fs with
  | nil =>
    simp only [List.foldl_nil]
    refine (List.filter_eq_self.mpr ?_).symm
    intro p _
    rfl
  | cons n ns ih =>
    simp only [List.foldl_cons]
    rw [ih (removeFolder n fs), removeFolder_eq_filter, List.filter_filter]
    refine List.filter_congr ?_
    intro p _
    by_cases hp : p.1 = n
    · simp [hp, List.contains_cons]
    · simp [hp, List.contains_cons]

theorem filter_not_contains_nil (l : List String) :
    (l.filter fun folder => !([] : List String).contains folder) = l := by
  refine List.filter_eq_self.mpr ?_
  intro a _
  rfl

theorem materialize_nil (st : DestState) :
    (materializeSkillsToWorkspace [] st).2 =
      .ok ⟨0, (loadManifest st.manifestFile).1.managedFolders.length, 0⟩ ∧
    (materializeSkillsToWorkspace [] st).1.folders =
      st.folders.filter (fun p =>
        !(loadManifest st.manifestFile).1.managedFolders.contains p.1) ∧
    (materializeSkillsToWorkspace [] st).1.manifestFile =
      writeManifestFile ⟨[], (loadManifest st.manifestFile).1.manualFolders⟩ ∧
    (materializeSkillsToWorkspace [] st).1.rootExists = true := by
  simp only [materializeSkillsToWorkspace, List.map_nil, List.filter_nil,
    List.filterMap_nil, List.foldl_nil, assertNoFolderNameConflicts,
    groupsByFolder, dedupKeepFirst, dedupKeepFirst.go, if_true,
    filter_not_contains_nil]
  refine ⟨by simp, ?_, by trivial, applyMigration_rootExists _⟩
  rw [foldl_removeFolder]
  rw [applyMigration_folders]

/-- C10: when the frozen-filtered enabled set is non-empty but none of its
ids resolve to a discovered skill, the sync returns without calling the
materializer — destination tree and manifest are untouched; only a
filtered-empty enabled set triggers `materialize([])`, which removes every
managed folder and persists an empty managed set. -/
theorem sync_frame_and_empty_materialize (allSkills : List SkillItem)
    (frozen enabled : List String) (st : DestState) :
    ((enabled ≠ []) →
      (enabled.filter fun id => !frozen.contains id) ≠ [] →
      (∀ id ∈ enabled, getSkillById allSkills id = none) →
      (syncMaterializedEnabledSkills allSkills frozen enabled st).dest = st ∧
      (syncMaterializedEnabledSkills allSkills frozen enabled
        st).materializeArg = none) ∧
    ((enabled.filter fun id => !frozen.contains id) = [] →
      (syncMaterializedEnabledSkills allSkills frozen enabled
        st).materializeArg = some [] ∧
      (syncMaterializedEnabledSkills allSkills frozen enabled st).result
        = .ok () ∧
      (syncMaterializedEnabledSkills allSkills frozen enabled st).dest.folders =
        st.folders.filter (fun p =>
          !(loadManifest st.manifestFile).1.managedFolders.contains p.1) ∧
      (loadManifest (syncMaterializedEnabledSkills allSkills frozen enabled
          st).dest.manifestFile).1.managedFolders = []) := by
  constructor
  · intro _ h2 h3
    have hlen : ¬ ((enabled.filter fun id => !frozen.contains id).length = 0) := by
      simpa [List.length_eq_zero] using h2
    have hskills : (enabled.filter fun id => !frozen.contains id).filterMap
        (getSkillById allSkills) = [] := by
      refine List.filterMap_eq_nil_iff.mpr ?_
      intro id hid
      exact h3 id (List.mem_filter.mp hid).1
    simp only [syncMaterializedEnabledSkills, hskills, if_neg hlen,
      List.length_nil, if_pos rfl]
    exact ⟨rfl, rfl⟩
  · intro hf
    rcases materialize_nil st with ⟨h1, h2, h3, _⟩
    simp only [syncMaterializedEnabledSkills, hf, List.length_nil,
      eq_self_iff_true, if_true]
    refine ⟨by trivial, ?_, ?_, ?_⟩
    · simp only [h1, Except.map]
    · simpa using h2
    · simp only [h3]
      rfl

/-- Witness for C10: a persisted enabled id that resolves to nothing leaves
the destination untouched. -/
theorem sync_frame_and_empty_materialize_witness :
    (syncMaterializedEnabledSkills [] [] ["x"]
      ⟨true, [], ManifestFile.absent⟩).dest = ⟨true, [], ManifestFile.absent⟩ ∧
    (syncMaterializedEnabledSkills [] [] ["x"]
      ⟨true, [], ManifestFile.absent⟩).materializeArg = none :=
  (sync_frame_and_empty_materialize [] [] ["x"]
    ⟨true, [], ManifestFile.absent⟩).1 (by decide) (by decide) (by decide)

/-! ## Name-conflict detection facts -/

theorem two_mem_le_length {α : Type} {l : List α} {a b : α}
    (ha : a ∈ l) (hb : b ∈ l) (hne : a ≠ b) : 2 ≤ l.length := by
  cases l with
  | nil => exact absurd ha (List.not_mem_nil a)
  | cons x xs =>
    cases xs with
    | nil =>
      rcases List.mem_singleton.mp ha with rfl
      rcases List.mem_singleton.mp hb with rfl
      exact absurd rfl hne
    | cons y ys => simp [Nat.succ_le_succ, Nat.le_add_left]

theorem plan_filter_map (skills : List SkillItem) (name : String) :
    (((skills.map fun s => (s, createTargetFolderName s)).filter
        fun e => e.2 = name).map Prod.fst) =
      skills.filter fun s => createTargetFolderName s = name := by
  induction skills with
  | nil => rfl
  | cons s rest ih =>
    by_cases h : createTargetFolderName s = name
    · simp only [List.map_cons, List.filter_cons, h]
      simpa [h] using congrArg (List.cons s) ih
    · simp only [List.map_cons, List.filter_cons, h]
      simpa [h] using ih

theorem mem_groupsByFolder {plan : List (SkillItem × String)} {name : String}
    (h : name ∈ plan.map Prod.snd) :
    (name, (plan.filter fun e => e.2 = name).map Prod.fst) ∈
      groupsByFolder plan :=
  List.mem_map.mpr ⟨name, mem_dedupKeepFirst.mpr h, rfl⟩

theorem groupsByFolder_shape {plan : List (SkillItem × String)}
    {g : String × List SkillItem} (h : g ∈ groupsByFolder plan) :
    g.2 = (plan.filter fun e => e.2 = g.1).map Prod.fst := by
  rcases List.mem_map.mp h with ⟨name, _, hg⟩
  rw [← hg]

/-- C2 (amended): two desired bundles with different slugs but equal
sanitized destination names make `materializeSkillsToWorkspace` throw a
`NameConflictError` whose groups list, per shared name, exactly the
claiming bundles (slug and source path included) and cover every offending
name — before the manifest is read or written and before any bundle folder
is copied or removed.  The failed call's only destination effect is the
unconditional `mkdir` of the destination root, so a pre-existing
destination tree is left identical. -/
theorem materialize_conflict_error (skills : List SkillItem) (st : DestState)
    (a b : SkillItem) (ha : a ∈ skills) (hb : b ∈ skills)
    (hslug : a.slug ≠ b.slug)
    (hname : createTargetFolderName a = createTargetFolderName b) :
    ∃ e : NameConflictError,
      (materializeSkillsToWorkspace skills st).2 = .error e ∧
      (∀ g ∈ e.conflicts,
        g.2 = skills.filter (fun s => createTargetFolderName s = g.1) ∧
        2 ≤ g.2.length) ∧
      (∀ name : String,
        2 ≤ (skills.filter fun s => createTargetFolderName s = name).length →
        ∃ g ∈ e.conflicts, g.1 = name) ∧
      (materializeSkillsToWorkspace skills st).1 =
        { st with rootExists := true } := by
  have hab : a ≠ b := fun hc => hslug (congrArg SkillItem.slug hc)
  have hfa : a ∈ skills.filter
      (fun s => createTargetFolderName s = createTargetFolderName a) :=
    List.mem_filter.mpr ⟨ha, by simp⟩
  have hfb : b ∈ skills.filter
      (fun s => createTargetFolderName s = createTargetFolderName a) :=
    List.mem_filter.mpr ⟨hb, by simp [hname]⟩
  have hlen2 : 2 ≤ (skills.filter
      (fun s => createTargetFolderName s = createTargetFolderName a)).length :=
    two_mem_le_length hfa hfb hab
  have hnamemem : createTargetFolderName a ∈
      (skills.map fun s => (s, createTargetFolderName s)).map Prod.snd :=
    List.mem_map.mpr ⟨(a, createTargetFolderName a),
      List.mem_map.mpr ⟨a, ha, rfl⟩, rfl⟩
  have hgm := mem_groupsByFolder hnamemem
  have hglen : 1 < ((((skills.map fun s => (s, createTargetFolderName s)).filter
      fun e => e.2 = createTargetFolderName a).map Prod.fst)).length := by
    rw [plan_filter_map]
    exact hlen2
  have hconfmem : (createTargetFolderName a,
      (((skills.map fun s => (s, createTargetFolderName s)).filter
        fun e => e.2 = createTargetFolderName a).map Prod.fst)) ∈
      (groupsByFolder (skills.map fun s =>
        (s, createTargetFolderName s))).filter fun g => 1 < g.2.length :=
    List.mem_filter.mpr ⟨hgm, by simpa using hglen⟩
  have hne : ((groupsByFolder (skills.map fun s =>
      (s, createTargetFolderName s))).filter fun g => 1 < g.2.length) ≠ [] :=
    List.ne_nil_of_mem hconfmem
  have hassert : assertNoFolderNameConflicts
      (skills.map fun s => (s, createTargetFolderName s)) =
      .error ⟨(groupsByFolder (skills.map fun s =>
        (s, createTargetFolderName s))).filter fun g => 1 < g.2.length⟩ := by
    simp only [assertNoFolderNameConflicts, if_neg hne]
  refine ⟨⟨(groupsByFolder (skills.map fun s =>
      (s, createTargetFolderName s))).filter fun g => 1 < g.2.length⟩,
    ?_, ?_, ?_, ?_⟩
  · simp only [materializeSkillsToWorkspace, hassert]
  · intro g hg
    have hg2 := List.mem_filter.mp hg
    have hshape := groupsByFolder_shape hg2.1
    rw [hshape, plan_filter_map]
    refine ⟨rfl, ?_⟩
    have := hg2.2
    simp only [decide_eq_true_eq] at this
    rw [hshape, plan_filter_map] at this
    exact this
  · intro name hn
    have hnonempty : (skills.filter fun s =>
        createTargetFolderName s = name) ≠ [] := by
      intro hc
      rw [hc] at hn
      exact absurd hn (by simp)
    rcases List.exists_mem_of_ne_nil _ hnonempty with ⟨s, hs⟩
    have hs2 := List.mem_filter.mp hs
    have hdec : createTargetFolderName s = name := by
      simpa using hs2.2
    have hnm : name ∈ (skills.map fun s =>
        (s, createTargetFolderName s)).map Prod.snd :=
      List.mem_map.mpr ⟨(s, createTargetFolderName s),
        List.mem_map.mpr ⟨s, hs2.1, rfl⟩, hdec⟩
    refine ⟨(name, (((skills.map fun s => (s, createTargetFolderName s)).filter
      fun e => e.2 = name).map Prod.fst)), ?_, rfl⟩
    refine List.mem_filter.mpr ⟨mem_groupsByFolder hnm, ?_⟩
    have : 1 < ((((skills.map fun s => (s, createTargetFolderName s)).filter
        fun e => e.2 = name).map Prod.fst)).length := by
      rw [plan_filter_map]
      exact hn
    simpa using this
  · simp only [materializeSkillsToWorkspace, hassert]

/-- Counterexample to C2 as stated: with two conflicting bundles and a
destination root that does not yet exist, the failed call still creates the
destination root directory (`fs.mkdir` runs before the conflict check), so
the destination state is not identical before and after; the conflict error
itself is thrown with both bundles grouped under the shared name. -/
theorem materialize_conflict_mutates_missing_root :
    (materializeSkillsToWorkspace
      [⟨"s:one", "s", "Alpha", "one", "/c/one"⟩,
       ⟨"s:two", "s", "alpha", "two", "/c/two"⟩]
      ⟨false, [], ManifestFile.absent⟩).2 =
      .error ⟨[("alpha",
        [⟨"s:one", "s", "Alpha", "one", "/c/one"⟩,
         ⟨"s:two", "s", "alpha", "two", "/c/two"⟩])]⟩ ∧
    (materializeSkillsToWorkspace
      [⟨"s:one", "s", "Alpha", "one", "/c/one"⟩,
       ⟨"s:two", "s", "alpha", "two", "/c/two"⟩]
      ⟨false, [], ManifestFile.absent⟩).1 ≠
      ⟨false, [], ManifestFile.absent⟩ := by
  refine ⟨by decide, by decide⟩

/-- Witness for C2 at concrete conflicting bundles over an existing
destination root. -/
theorem materialize_conflict_error_witness :
    ∃ e : NameConflictError,
      (materializeSkillsToWorkspace
        [⟨"s:one", "s", "Alpha", "one", "/c/one"⟩,
         ⟨"s:two", "s", "alpha", "two", "/c/two"⟩]
        ⟨true, [], ManifestFile.absent⟩).2 = .error e ∧
      (∀ g ∈ e.conflicts,
        g.2 = [(⟨"s:one", "s", "Alpha", "one", "/c/one"⟩ : SkillItem),
               ⟨"s:two", "s", "alpha", "two", "/c/two"⟩].filter
          (fun s => createTargetFolderName s = g.1) ∧
        2 ≤ g.2.length) ∧
      (∀ name : String,
        2 ≤ ([(⟨"s:one", "s", "Alpha", "one", "/c/one"⟩ : SkillItem),
              ⟨"s:two", "s", "alpha", "two", "/c/two"⟩].filter
          fun s => createTargetFolderName s = name).length →
        ∃ g ∈ e.conflicts, g.1 = name) ∧
      (materializeSkillsToWorkspace
        [⟨"s:one", "s", "Alpha", "one", "/c/one"⟩,
         ⟨"s:two", "s", "alpha", "two", "/c/two"⟩]
        ⟨true, [], ManifestFile.absent⟩).1 =
        { (⟨true, [], ManifestFile.absent⟩ : DestState) with
            rootExists := true } :=
  materialize_conflict_error
    [⟨"s:one", "s", "Alpha", "one", "/c/one"⟩,
     ⟨"s:two", "s", "alpha", "two", "/c/two"⟩]
    ⟨true, [], ManifestFile.absent⟩
    ⟨"s:one", "s", "Alpha", "one", "/c/one"⟩
    ⟨"s:two", "s", "alpha", "two", "/c/two"⟩
    (by decide) (by decide) (by decide) (by decide)

/-! ## Lookup and no-conflict facts used by the idempotence and manual
protection claims -/

theorem lookupFolder_removeFolder_ne {name n : String}
    (fs : List (String × FolderContent)) (h : name ≠ n) :
    lookupFolder name (removeFolder n fs) = lookupFolder name fs := by
  induction fs with
  | nil => rfl
  | cons p rest ih =>
    cases p with
    | mk pn pc =>
      by_cases hp : pn = n
      · have hrm : removeFolder n ((pn, pc) :: rest) = removeFolder n rest := by
          simp [removeFolder_eq_filter, List.filter_cons, hp]
        rw [hrm, ih]
        subst hp
        simp [lookupFolder, Ne.symm h]
      · have hrm : removeFolder n ((pn, pc) :: rest) =
            (pn, pc) :: removeFolder n rest := by
          simp [removeFolder_eq_filter, List.filter_cons, hp]
        rw [hrm]
        by_cases hn : pn = name
        · simp [lookupFolder, hn]
        · simp only [lookupFolder, hn, if_false]
          exact ih

theorem lookupFolder_append_singleton_ne {name n : String}
    (c : FolderContent) (fs : List (String × FolderContent)) (h : name ≠ n) :
    lookupFolder name (fs ++ [(n, c)]) = lookupFolder name fs := by
  induction fs with
  | nil => simp [lookupFolder, Ne.symm h]
  | cons p rest ih =>
    cases p with
    | mk pn pc =>
      by_cases hn : pn = name
      · simp [lookupFolder, hn]
      · simp only [List.cons_append, lookupFolder, hn, if_false]
        exact ih

theorem lookupFolder_copyFolder_ne {name n : String} (abs : String)
    (fs : List (String × FolderContent)) (h : name ≠ n) :
    lookupFolder name (copyFolder n abs fs) = lookupFolder name fs := by
  rw [copyFolder, lookupFolder_append_singleton_ne _ _ h,
    lookupFolder_removeFolder_ne _ h]

theorem lookupFolder_foldl_remove {name : String} (names : List String)
    (fs : List (String × FolderContent)) (h : ¬ name ∈ names) :
    lookupFolder name (names.foldl (fun acc n => removeFolder n acc) fs) =
      lookupFolder name fs := by
  induction names generalizing fs with
  | nil => rfl
  | cons n ns ih =>
    simp only [List.foldl_cons]
    have hn : name ≠ n := fun hc => h (hc ▸ List.mem_cons_self n ns)
    rw [ih (removeFolder n fs) (fun hc => h (List.mem_cons_of_mem n hc)),
      lookupFolder_removeFolder_ne _ hn]

theorem lookupFolder_foldl_copy {name : String}
    (plan : List (SkillItem × String)) (fs : List (String × FolderContent))
    (h : ∀ e ∈ plan, e.2 ≠ name) :
    lookupFolder name (plan.foldl
      (fun acc entry => copyFolder entry.2 entry.1.absolutePath acc) fs) =
      lookupFolder name fs := by
  induction plan generalizing fs with
  | nil => rfl
  | cons e es ih =>
    simp only [List.foldl_cons]
    have hne : name ≠ e.2 :=
      fun hc => (h e (List.mem_cons_self e es)) hc.symm
    rw [ih _ (fun x hx => h x (List.mem_cons_of_mem e hx)),
      lookupFolder_copyFolder_ne _ _ hne]

theorem filter_ctfn_le_one {skills : List SkillItem}
    (h : (skills.map createTargetFolderName).Nodup) (name : String) :
    (skills.filter fun s => createTargetFolderName s = name).length ≤ 1 := by
  induction skills with
  | nil => simp
  | cons s rest ih =>
    rw [List.map_cons] at h
    rcases List.nodup_cons.mp h with ⟨hs, hrest⟩
    by_cases hc : createTargetFolderName s = name
    · have hnil : (rest.filter fun t => createTargetFolderName t = name) = [] := by
        refine List.filter_eq_nil_iff.mpr ?_
        intro t ht
        simp only [decide_eq_true_eq]
        intro hct
        exact hs (List.mem_map.mpr ⟨t, ht, by rw [hct, hc]⟩)
      simp [List.filter_cons, hc, hnil]
    · simpa [List.filter_cons, hc] using ih hrest

theorem assert_ok_of_nodup {skills : List SkillItem}
    (h : (skills.map createTargetFolderName).Nodup) :
    assertNoFolderNameConflicts
      (skills.map fun s => (s, createTargetFolderName s)) = .ok () := by
  have hx : ((groupsByFolder (skills.map fun s =>
      (s, createTargetFolderName s))).filter fun g => 1 < g.2.length) = [] := by
    refine List.filter_eq_nil_iff.mpr ?_
    intro g hg
    have hshape := groupsByFolder_shape hg
    simp only [decide_eq_true_eq]
    intro hlen
    rw [hshape, plan_filter_map] at hlen
    exact absurd hlen (Nat.not_lt.mpr (filter_ctfn_le_one h g.1))
  simp only [assertNoFolderNameConflicts, hx, eq_self_iff_true, if_true]

theorem loadWrite_manual_of_canon {managed manual : List String}
    (hM : canonList manual) :
    (loadManifest (writeManifestFile ⟨managed, manual⟩)).1.manualFolders =
      manual := by
  simp only [writeManifestFile, loadManifest, jStrings_map_jstr]
  exact canonList_roundtrip hM

theorem loadWrite_managed_of_canon {managed manual : List String}
    (hM : canonList managed) :
    (loadManifest (writeManifestFile ⟨managed, manual⟩)).1.managedFolders =
      managed := by
  simp only [writeManifestFile, loadManifest, jStrings_map_jstr]
  exact canonList_roundtrip hM

/-- C5: a desired bundle whose sanitized destination name sits in the
manifest's `manualFolders` is never copied and its existing folder is never
removed (the folder entry at that name is untouched), it is counted in
`skippedManual`, no error arises on its account, and `manualFolders` is
persisted unchanged.  (Stated for a conflict-free desired list — a
name-conflict error concerns duplicate desired names, not the manual
collision — and a disjoint manifest, the invariant every mutator
maintains.) -/
theorem materialize_protects_manual (skills : List SkillItem) (st : DestState)
    (b : SkillItem) (hb : b ∈ skills)
    (hnodup : (skills.map createTargetFolderName).Nodup)
    (hman : createTargetFolderName b ∈
      (loadManifest st.manifestFile).1.manualFolders)
    (hdisj : manifestDisjoint (loadManifest st.manifestFile).1) :
    ∃ res : MaterializeResult,
      (materializeSkillsToWorkspace skills st).2 = .ok res ∧
      1 ≤ res.skippedManual ∧
      lookupFolder (createTargetFolderName b)
        (materializeSkillsToWorkspace skills st).1.folders =
        lookupFolder (createTargetFolderName b) st.folders ∧
      (loadManifest
          (materializeSkillsToWorkspace skills
            st).1.manifestFile).1.manualFolders =
        (loadManifest st.manifestFile).1.manualFolders := by
  have hassert := assert_ok_of_nodup hnodup
  have hplanmem : createTargetFolderName b ∈
      (skills.map fun s => (s, createTargetFolderName s)).map Prod.snd :=
    List.mem_map.mpr ⟨(b, createTargetFolderName b),
      List.mem_map.mpr ⟨b, hb, rfl⟩, rfl⟩
  have hcolmem : createTargetFolderName b ∈
      dedupKeepFirst
        (((skills.map fun s => (s, createTargetFolderName s)).map
            Prod.snd).filter fun folder =>
          (loadManifest st.manifestFile).1.manualFolders.contains folder) :=
    mem_dedupKeepFirst.mpr (List.mem_filter.mpr
      ⟨hplanmem, List.elem_iff.mpr hman⟩)
  simp only [materializeSkillsToWorkspace, hassert]
  refine ⟨_, rfl, ?_, ?_, ?_⟩
  · exact List.length_pos.mpr (List.ne_nil_of_mem hcolmem)
  · have hplan : ∀ e ∈ (skills.map fun s =>
        (s, createTargetFolderName s)).filter (fun entry =>
          !(dedupKeepFirst
            (((skills.map fun s => (s, createTargetFolderName s)).map
                Prod.snd).filter fun folder =>
              (loadManifest st.manifestFile).1.manualFolders.contains
                folder)).contains entry.2),
        e.2 ≠ createTargetFolderName b := by
      intro e he hc
      have hcond := (List.mem_filter.mp he).2
      rw [Bool.not_eq_true'] at hcond
      have : (dedupKeepFirst
          (((skills.map fun s => (s, createTargetFolderName s)).map
              Prod.snd).filter fun folder =>
            (loadManifest st.manifestFile).1.manualFolders.contains
              folder)).contains e.2 = true := by
        rw [hc]
        exact List.elem_iff.mpr hcolmem
      rw [hcond] at this
      exact Bool.noConfusion this
    have hnrm : createTargetFolderName b ∉
        (loadManifest st.manifestFile).1.managedFolders.filter (fun folder =>
          !(dedupKeepFirst ((((skills.map fun s =>
            (s, createTargetFolderName s)).filter fun entry =>
              !(dedupKeepFirst
                (((skills.map fun s => (s, createTargetFolderName s)).map
                    Prod.snd).filter fun folder =>
                  (loadManifest st.manifestFile).1.manualFolders.contains
                    folder)).contains entry.2).map
              Prod.snd))).contains folder) := by
      intro hc
      exact hdisj _ (List.mem_filter.mp hc).1 hman
    rw [lookupFolder_foldl_copy _ _ hplan,
      lookupFolder_foldl_remove _ _ hnrm, applyMigration_folders]
  · exact loadWrite_manual_of_canon (loadManifest_canon st.manifestFile).2

/-- Witness for C5: one bundle colliding with a protected manual folder. -/
theorem materialize_protects_manual_witness :
    ∃ res : MaterializeResult,
      (materializeSkillsToWorkspace
        [⟨"s:beta", "s", "beta", "beta", "/c/beta"⟩]
        ⟨true, [("beta", FolderContent.preexisting true 7)],
          ManifestFile.parsed (.array []) (.array [.jstr "beta"])⟩).2 =
        .ok res ∧
      1 ≤ res.skippedManual ∧
      lookupFolder
        (createTargetFolderName ⟨"s:beta", "s", "beta", "beta", "/c/beta"⟩)
        (materializeSkillsToWorkspace
          [⟨"s:beta", "s", "beta", "beta", "/c/beta"⟩]
          ⟨true, [("beta", FolderContent.preexisting true 7)],
            ManifestFile.parsed (.array [])
              (.array [.jstr "beta"])⟩).1.folders =
        lookupFolder
          (createTargetFolderName ⟨"s:beta", "s", "beta", "beta", "/c/beta"⟩)
          [("beta", FolderContent.preexisting true 7)] ∧
      (loadManifest
          (materializeSkillsToWorkspace
            [⟨"s:beta", "s", "beta", "beta", "/c/beta"⟩]
            ⟨true, [("beta", FolderContent.preexisting true 7)],
              ManifestFile.parsed (.array [])
                (.array [.jstr "beta"])⟩).1.manifestFile).1.manualFolders =
        (loadManifest (ManifestFile.parsed (.array [])
          (.array [.jstr "beta"]))).1.manualFolders :=
  materialize_protects_manual
    [⟨"s:beta", "s", "beta", "beta", "/c/beta"⟩]
    ⟨true, [("beta", FolderContent.preexisting true 7)],
      ManifestFile.parsed (.array []) (.array [.jstr "beta"])⟩
    ⟨"s:beta", "s", "beta", "beta", "/c/beta"⟩
    (by decide) (by decide) (by decide) (by decide)

/-- C4: materializing a conflict-free bundle list whose names avoid the
manual set, twice in a row, copies `|S|` bundles on both calls and removes
nothing on the second call. -/
theorem materialize_idempotent (skills : List SkillItem) (st : DestState)
    (hnodup : (skills.map createTargetFolderName).Nodup)
    (hman : ∀ s ∈ skills, createTargetFolderName s ∉
      (loadManifest st.manifestFile).1.manualFolders) :
    ∃ res1 res2 : MaterializeResult,
      (materializeSkillsToWorkspace skills st).2 = .ok res1 ∧
      res1.copied = skills.length ∧
      (materializeSkillsToWorkspace skills
        (materializeSkillsToWorkspace skills st).1).2 = .ok res2 ∧
      res2.copied = skills.length ∧
      res2.removed = 0 := by
  have hassert := assert_ok_of_nodup hnodup
  have hplannames : ((skills.map fun s =>
      (s, createTargetFolderName s)).map Prod.snd) =
      skills.map createTargetFolderName := by
    rw [List.map_map]
    rfl
  have hfilterman : ∀ manual : List String,
      (∀ s ∈ skills, createTargetFolderName s ∉ manual) →
      ((skills.map createTargetFolderName).filter fun folder =>
        manual.contains folder) = [] := by
    intro manual hm
    refine List.filter_eq_nil_iff.mpr ?_
    intro folder hf hc
    rcases List.mem_map.mp hf with ⟨s, hs, rfl⟩
    exact hm s hs (List.elem_iff.mp hc)
  set st1 := (materializeSkillsToWorkspace skills st).1 with hst1def
  have hcoll1 : dedupKeepFirst
      (((skills.map fun s => (s, createTargetFolderName s)).map
          Prod.snd).filter fun folder =>
        (loadManifest st.manifestFile).1.manualFolders.contains folder) = [] := by
    rw [hplannames, hfilterman _ hman]
    rfl
  have hfp1 : ((skills.map fun s => (s, createTargetFolderName s)).filter
      fun entry =>
        !(dedupKeepFirst
          (((skills.map fun s => (s, createTargetFolderName s)).map
              Prod.snd).filter fun folder =>
            (loadManifest st.manifestFile).1.manualFolders.contains
              folder)).contains entry.2) =
      skills.map fun s => (s, createTargetFolderName s) := by
    rw [hcoll1]
    exact List.filter_eq_self.mpr fun e _ => rfl
  have hfile1 : st1.manifestFile =
      writeManifestFile ⟨skills.map createTargetFolderName,
        (loadManifest st.manifestFile).1.manualFolders⟩ := by
    rw [hst1def]
    simp only [materializeSkillsToWorkspace, hassert]
    rw [hfp1, hplannames, dedupKeepFirst_of_nodup hnodup]
  have hres1 : (materializeSkillsToWorkspace skills st).2 =
      .ok ⟨skills.length,
        ((loadManifest st.manifestFile).1.managedFolders.filter fun folder =>
          !(dedupKeepFirst ((skills.map fun s =>
            (s, createTargetFolderName s)).map Prod.snd)).contains
            folder).length, 0⟩ := by
    simp only [materializeSkillsToWorkspace, hassert]
    rw [hfp1, hcoll1]
    simp
  have hman2 : (loadManifest st1.manifestFile).1.manualFolders =
      (loadManifest st.manifestFile).1.manualFolders := by
    rw [hfile1]
    exact loadWrite_manual_of_canon (loadManifest_canon st.manifestFile).2
  have hmanaged2 : ∀ f ∈ (loadManifest st1.manifestFile).1.managedFolders,
      f ∈ skills.map createTargetFolderName := by
    rw [hfile1]
    intro f hf
    exact ((mem_loadManifest_writeManifestFile _ f).1.mp hf).1
  have hcoll2 : dedupKeepFirst
      (((skills.map fun s => (s, createTargetFolderName s)).map
          Prod.snd).filter fun folder =>
        (loadManifest st1.manifestFile).1.manualFolders.contains folder)
      = [] := by
    rw [hman2, hplannames, hfilterman _ hman]
    rfl
  have hfp2 : ((skills.map fun s => (s, createTargetFolderName s)).filter
      fun entry =>
        !(dedupKeepFirst
          (((skills.map fun s => (s, createTargetFolderName s)).map
              Prod.snd).filter fun folder =>
            (loadManifest st1.manifestFile).1.manualFolders.contains
              folder)).contains entry.2) =
      skills.map fun s => (s, createTargetFolderName s) := by
    rw [hcoll2]
    exact List.filter_eq_self.mpr fun e _ => rfl
  have hrm2 : ((loadManifest st1.manifestFile).1.managedFolders.filter
      fun folder =>
        !(dedupKeepFirst ((skills.map fun s =>
          (s, createTargetFolderName s)).map Prod.snd)).contains folder)
      = [] := by
    rw [hplannames, dedupKeepFirst_of_nodup hnodup]
    refine List.filter_eq_nil_iff.mpr ?_
    intro f hf
    have hc : (skills.map createTargetFolderName).contains f = true :=
      List.elem_iff.mpr (hmanaged2 f hf)
    intro hcontra
    rw [Bool.not_eq_true'] at hcontra
    rw [hc] at hcontra
    exact Bool.noConfusion hcontra
  have hres2 : (materializeSkillsToWorkspace skills st1).2 =
      .ok ⟨skills.length, 0, 0⟩ := by
    simp only [materializeSkillsToWorkspace, hassert]
    rw [hfp2, hcoll2, hrm2]
    simp
  exact ⟨_, _, hres1, rfl, hres2, rfl, rfl⟩

/-- Witness for C4: one bundle, twice, over an empty destination. -/
theorem materialize_idempotent_witness :
    ∃ res1 res2 : MaterializeResult,
      (materializeSkillsToWorkspace
        [⟨"s:alpha", "s", "alpha", "alpha", "/c/alpha"⟩]
        ⟨true, [], ManifestFile.absent⟩).2 = .ok res1 ∧
      res1.copied =
        ([⟨"s:alpha", "s", "alpha", "alpha", "/c/alpha"⟩] :
          List SkillItem).length ∧
      (materializeSkillsToWorkspace
        [⟨"s:alpha", "s", "alpha", "alpha", "/c/alpha"⟩]
        (materializeSkillsToWorkspace
          [⟨"s:alpha", "s", "alpha", "alpha", "/c/alpha"⟩]
          ⟨true, [], ManifestFile.absent⟩).1).2 = .ok res2 ∧
      res2.copied =
        ([⟨"s:alpha", "s", "alpha", "alpha", "/c/alpha"⟩] :
          List SkillItem).length ∧
      res2.removed = 0 :=
  materialize_idempotent [⟨"s:alpha", "s", "alpha", "alpha", "/c/alpha"⟩]
    ⟨true, [], ManifestFile.absent⟩ (by decide) (by decide)

/-- Counterexample to C6 as stated: with one readable bundle and one
unreadable sibling directory under the `skills` candidate root, discovery
propagates the read error instead of skipping the unreadable subtree and
returning the bundle found elsewhere (`findSkillDirectories` has no
try/catch around `readdir`). -/
theorem discover_unreadable_error :
    discoverSkills "/checkout"
      (some (.dir true false [("skills", .dir true false
        [("alpha", .dir true true []), ("locked", .dir false false [])])]))
      "src" none = .error () := by
  decide

/-- C6 (amended): a missing checkout root yields the empty list without
failing, for every source id and sub-path hint; but an unreadable directory
reached by the traversal makes `discoverSkills` fail with the read error —
it is not skipped, and bundles found elsewhere are lost (shown at a
concrete checkout holding one readable bundle and one unreadable
directory). -/
theorem discover_contract :
    (∀ (rootPath sourceId : String) (hint : Option (List String)),
      discoverSkills rootPath none sourceId hint = .ok []) ∧
    discoverSkills "/checkout"
      (some (.dir true false [("skills", .dir true false
        [("alpha", .dir true true []), ("locked", .dir false false [])])]))
      "src" none = .error () :=
  ⟨fun _ _ _ => rfl, by decide⟩

/-! ## Reference-resolution facts -/

theorem toList_ne_nil {s : String} (h : s ≠ "") : s.toList ≠ [] := by
  intro hc
  apply h
  cases s with
  | mk data =>
    simp only [String.toList] at hc
    rw [hc]

/-- A string without forward slashes. -/
def noSlashStr (s : String) : Prop := ∀ c ∈ s.toList, c ≠ '/'

instance (s : String) : Decidable (noSlashStr s) :=
  inferInstanceAs (Decidable (∀ c ∈ s.toList, c ≠ '/'))

theorem dropWhile_eq_self_of_head {p : Char → Bool} {l : List Char}
    (h : ∀ c, l.head? = some c → p c = false) : l.dropWhile p = l := by
  cases l with
  | nil => rfl
  | cons c cs => simp [List.dropWhile_cons, h c rfl]

theorem stringMk_toList (s : String) : String.mk s.toList = s := by
  cases s with
  | mk data => rfl

theorem stripSlashes_eq_self {s : String} (_h0 : s.toList ≠ [])
    (hh : s.toList.head? ≠ some '/') (hl : s.toList.getLast? ≠ some '/') :
    stripSlashes s = s := by
  unfold stripSlashes
  have h1 : s.toList.dropWhile (· = '/') = s.toList := by
    apply dropWhile_eq_self_of_head
    intro c hc
    have hcne : c ≠ '/' := by
      intro he
      rw [he] at hc
      exact hh hc
    simpa using hcne
  rw [h1]
  have h2 : (s.toList.reverse).dropWhile (· = '/') = s.toList.reverse := by
    apply dropWhile_eq_self_of_head
    intro c hc
    rw [List.head?_reverse] at hc
    have hcne : c ≠ '/' := by
      intro he
      rw [he] at hc
      exact hl hc
    simpa using hcne
  rw [h2, List.reverse_reverse, stringMk_toList]

theorem joinSlash_facts (ps : List String) (h1 : ps ≠ [])
    (h2 : ∀ p ∈ ps, p ≠ "" ∧ noSlashStr p) :
    (joinSlash ps).toList ≠ [] ∧
    (joinSlash ps).toList.head? ≠ some '/' ∧
    (joinSlash ps).toList.getLast? ≠ some '/' := by
  induction ps with
  | nil => exact absurd rfl h1
  | cons p rest ih =>
    rcases h2 p (List.mem_cons_self p rest) with ⟨hpne, hpslash⟩
    cases rest with
    | nil =>
      refine ⟨toList_ne_nil hpne, ?_, ?_⟩
      · intro hc
        exact hpslash '/' (List.mem_of_mem_head? hc) rfl
      · intro hc
        exact hpslash '/' (List.mem_of_mem_getLast? hc) rfl
    | cons q rest' =>
      have hrest : (q :: rest') ≠ [] := by simp
      rcases ih hrest (fun x hx => h2 x (List.mem_cons_of_mem p hx)) with
        ⟨ha, hb, hc⟩
      have hjoin : joinSlash (p :: q :: rest') =
          p ++ "/" ++ joinSlash (q :: rest') := rfl
      have htl : (joinSlash (p :: q :: rest')).toList =
          (p.toList ++ ['/']) ++ (joinSlash (q :: rest')).toList := by
        rw [hjoin]
        rfl
      have hpl := toList_ne_nil hpne
      refine ⟨?_, ?_, ?_⟩
      · rw [htl]
        simp
      · rw [htl]
        cases hp : p.toList with
        | nil => exact absurd hp hpl
        | cons c cs =>
          simp only [List.cons_append, List.head?_cons]
          intro hcontra
          have hcc : c = '/' := by simpa using hcontra
          exact hpslash c (by rw [hp]; exact List.mem_cons_self c cs) hcc
      · rw [htl, List.getLast?_append_of_ne_nil _ ha]
        exact hc

theorem stripSlashes_joinSlash {ps : List String} (h1 : ps ≠ [])
    (h2 : ∀ p ∈ ps, p ≠ "" ∧ noSlashStr p) :
    stripSlashes (joinSlash ps) = joinSlash ps ∧ joinSlash ps ≠ "" := by
  rcases joinSlash_facts ps h1 h2 with ⟨ha, hb, hc⟩
  refine ⟨stripSlashes_eq_self ha hb hc, ?_⟩
  intro he
  apply ha
  rw [he]
  rfl

/-- C7: a GitHub tree URL `https://github.com/owner/repo/tree/b/p1/.../pn`
with `n ≥ 1` resolves to the canonical repo URL, branch `b`, and sub-path
`p1/.../pn`; a tree URL whose path stops at the branch fails with the
invalid-reference error instead of importing the whole repository. -/
theorem parseGitHub_tree_urls (raw owner repo branch : String)
    (ps : List String) (hasQ : Bool)
    (how : owner ≠ "") (hrep : repo ≠ "") (hbr : branch ≠ "")
    (hgit : endsWithDotGitCI repo = false)
    (hps : ps ≠ []) (hseg : ∀ p ∈ ps, p ≠ "" ∧ noSlashStr p) :
    parseGitHubSourceInput ⟨raw, "github.com",
        "" :: owner :: repo :: "tree" :: branch :: ps, hasQ⟩ =
      .ok ⟨"https://github.com/" ++ owner ++ "/" ++ repo, some branch,
        some (joinSlash ps)⟩ ∧
    parseGitHubSourceInput ⟨raw, "github.com",
        ["", owner, repo, "tree", branch], hasQ⟩ = .error () := by
  have hp1 : 0 < ps.length := List.length_pos.mpr hps
  have htail : ps.filter (fun s => s ≠ "") = ps :=
    List.filter_eq_self.mpr (fun p hp => by simpa using (hseg p hp).1)
  have hstrip := stripSlashes_joinSlash hps hseg
  have hdg : stripDotGit repo = repo := by simp [stripDotGit, hgit]
  constructor
  · simp only [parseGitHubSourceInput, matchesBareHttpsPattern]
    have htail2 : ps.filter (fun x => !decide (x = "")) = ps :=
      List.filter_eq_self.mpr (fun p hp => by simp [(hseg p hp).1])
    have hc1 : ¬ (ps.length + 1 + 1 + 1 + 1 < 2) := by omega
    simp [List.filter_cons, how, hrep, hbr, htail2, hdg, hstrip.1, hstrip.2,
      List.length_cons, hc1, hp1, hps]
  · simp only [parseGitHubSourceInput, matchesBareHttpsPattern]
    simp [List.filter_cons, how, hrep, hbr, hdg]

/-- Witness for C7 at a concrete tree URL with one folder segment. -/
theorem parseGitHub_tree_urls_witness :
    parseGitHubSourceInput ⟨"https://github.com/acme/tools/tree/main/skills",
        "github.com", ["", "acme", "tools", "tree", "main", "skills"],
        false⟩ =
      .ok ⟨"https://github.com/acme/tools", some "main", some "skills"⟩ ∧
    parseGitHubSourceInput ⟨"https://github.com/acme/tools/tree/main",
        "github.com", ["", "acme", "tools", "tree", "main"], false⟩ =
      .error () :=
  parseGitHub_tree_urls "https://github.com/acme/tools/tree/main/skills"
    "acme" "tools" "main" ["skills"] false (by decide) (by decide) (by decide)
    (by decide) (by decide) (by decide)

/-! ## Substring facts for the git error messages -/

theorem hasSubSeq_nil_pat (l : List Char) : hasSubSeq l [] = true := by
  cases l <;> rfl

theorem seqStartsAt_refl_append (pat y : List Char) :
    seqStartsAt pat (pat ++ y) = true := by
  induction pat with
  | nil => rfl
  | cons p ps ih => simp [seqStartsAt, ih]

theorem seqStartsAt_append_left {pat l : List Char} (m : List Char)
    (h : seqStartsAt pat l = true) : seqStartsAt pat (l ++ m) = true := by
  induction pat generalizing l with
  | nil => rfl
  | cons p ps ih =>
    cases l with
    | nil => exact absurd h (by simp [seqStartsAt])
    | cons c cs =>
      simp only [seqStartsAt, Bool.and_eq_true] at h
      simp only [List.cons_append, seqStartsAt, Bool.and_eq_true]
      exact ⟨h.1, ih h.2⟩

theorem hasSubSeq_append_right (a : List Char) {b pat : List Char}
    (h : hasSubSeq b pat = true) : hasSubSeq (a ++ b) pat = true := by
  induction a with
  | nil => simpa using h
  | cons c cs ih =>
    simp only [List.cons_append, hasSubSeq, Bool.or_eq_true]
    exact Or.inr ih

theorem hasSubSeq_append_left {a pat : List Char} (b : List Char)
    (h : hasSubSeq a pat = true) : hasSubSeq (a ++ b) pat = true := by
  induction a with
  | nil =>
    cases pat with
    | nil => exact hasSubSeq_nil_pat b
    | cons p ps => exact absurd h (by simp [hasSubSeq, seqStartsAt])
  | cons c cs ih =>
    simp only [hasSubSeq, Bool.or_eq_true] at h
    simp only [List.cons_append, hasSubSeq, Bool.or_eq_true]
    rcases h with h | h
    · exact Or.inl (seqStartsAt_append_left b h)
    · exact Or.inr (ih h)

theorem hasSubSeq_front (pat y : List Char) :
    hasSubSeq (pat ++ y) pat = true := by
  cases pat with
  | nil => exact hasSubSeq_nil_pat y
  | cons p ps =>
    simp only [List.cons_append, hasSubSeq, Bool.or_eq_true]
    exact Or.inl (by simpa using seqStartsAt_refl_append (p :: ps) y)

theorem toList_append (a b : String) : (a ++ b).toList = a.toList ++ b.toList :=
  rfl

theorem includesStr_append_right (a b pat : String)
    (h : includesStr b pat = true) : includesStr (a ++ b) pat = true := by
  unfold includesStr at h ⊢
  rw [toList_append]
  exact hasSubSeq_append_right _ h

theorem includesStr_append_left (a b pat : String)
    (h : includesStr a pat = true) : includesStr (a ++ b) pat = true := by
  unfold includesStr at h ⊢
  rw [toList_append]
  exact hasSubSeq_append_left _ h

theorem includesStr_front (s q : String) : includesStr (s ++ q) s = true := by
  unfold includesStr
  rw [toList_append]
  exact hasSubSeq_front _ _

theorem includesStr_self (s : String) : includesStr s s = true := by
  unfold includesStr
  have := hasSubSeq_front s.toList []
  simpa using this

theorem stringAppend_assoc (a b c : String) : (a ++ b) ++ c = a ++ (b ++ c) := by
  cases a with
  | mk la =>
    cases b with
    | mk lb =>
      cases c with
      | mk lc =>
        show String.mk ((la ++ lb) ++ lc) = String.mk (la ++ (lb ++ lc))
        rw [List.append_assoc]

theorem lowerStr_append (a b : String) :
    lowerStr (a ++ b) = lowerStr a ++ lowerStr b := by
  unfold lowerStr
  rw [toList_append, List.map_append]
  rfl

theorem buildGitError_mentions_auth {action : GitAction} {uri s : String}
    (h : isAuthenticationFailure s = true) :
    includesStr (lowerStr (buildGitError action uri s))
      "authentication failed" = true := by
  rw [buildGitError, if_pos h, lowerStr_append]
  exact includesStr_append_right _ _ _ (by decide)

theorem chain_all_auth_fail {env : AuthEnv} {uri : String} {act : GitAction}
    {s1 s2 s3 : String}
    (h1 : env.ambient = .failure s1)
    (ha1 : isAuthenticationFailure s1 = true)
    (hd : env.defaultTokenAvailable = true)
    (h2 : env.withDefaultToken = .failure s2)
    (ha2 : isAuthenticationFailure s2 = true)
    (hp : env.pickedTokenAvailable = true)
    (h3 : env.withPickedToken = .failure s3) :
    runGitWithAuthFallback env true uri act =
      ([.ambient, .defaultToken, .pickedToken],
        .error (buildGitError act uri s3)) := by
  simp [runGitWithAuthFallback, h1, ha1, hd, h2, ha2, hp, h3]

theorem sshKey_not_mem_chain (env : AuthEnv) (g : Bool) (uri : String)
    (act : GitAction) :
    AuthTier.sshKey ∉ (runGitWithAuthFallback env g uri act).1 := by
  cases henv : env.ambient with
  | success => simp [runGitWithAuthFallback, henv]
  | failure s1 =>
    simp only [runGitWithAuthFallback, henv]
    by_cases hc1 : (g && isAuthenticationFailure s1) = true
    · simp only [hc1, Bool.not_true, Bool.false_eq_true, if_false]
      by_cases hd : env.defaultTokenAvailable = true
      · simp only [hd, Bool.not_true, Bool.false_eq_true, if_false]
        cases hdt : env.withDefaultToken with
        | success => simp
        | failure s2 =>
          by_cases hc2 : isAuthenticationFailure s2 = true
          · simp only [hc2, Bool.not_true, Bool.false_eq_true, if_false]
            by_cases hpt : env.pickedTokenAvailable = true
            · simp only [hpt, Bool.not_true, Bool.false_eq_true, if_false]
              cases hpo : env.withPickedToken with
              | success => simp
              | failure s3 => simp
            · have hpt' : env.pickedTokenAvailable = false := by
                simpa using hpt
              simp [hpt']
          · have hc2' : isAuthenticationFailure s2 = false := by
              simpa using hc2
            simp [hc2']
      · have hd' : env.defaultTokenAvailable = false := by simpa using hd
        simp [hd']
    · have hc1' : (g && isAuthenticationFailure s1) = false := by
        simpa using hc1
      simp [hc1']

/-- C8: the token chain tries ambient credentials, the default-session
token, then a re-picked account's token, stopping at the first success; a
failure the auth classifier does not recognize aborts the chain at that
tier; the chain itself never attempts SSH (so pull never does), and for
clone, when the whole chain fails with an auth-classified error and an SSH
form of the URL derives, exactly one SSH attempt follows whose failure
yields a combined error carrying both the HTTPS and SSH causes plus the
organization single-sign-on hint. -/
theorem git_auth_fallback_chain :
    (∀ (env : AuthEnv) (g : Bool) (uri : String) (act : GitAction),
      (env.ambient = .success →
        runGitWithAuthFallback env g uri act = ([.ambient], .ok ())) ∧
      (∀ s1, env.ambient = .failure s1 → g = true →
        isAuthenticationFailure s1 = true →
        env.defaultTokenAvailable = true →
        env.withDefaultToken = .success →
        runGitWithAuthFallback env g uri act =
          ([.ambient, .defaultToken], .ok ())) ∧
      (∀ s1 s2, env.ambient = .failure s1 → g = true →
        isAuthenticationFailure s1 = true →
        env.defaultTokenAvailable = true →
        env.withDefaultToken = .failure s2 →
        isAuthenticationFailure s2 = true →
        env.pickedTokenAvailable = true →
        env.withPickedToken = .success →
        runGitWithAuthFallback env g uri act =
          ([.ambient, .defaultToken, .pickedToken], .ok ())) ∧
      (∀ s1, env.ambient = .failure s1 →
        isAuthenticationFailure s1 = false →
        runGitWithAuthFallback env g uri act =
          ([.ambient], .error (buildGitError act uri s1))) ∧
      (∀ s1 s2, env.ambient = .failure s1 → g = true →
        isAuthenticationFailure s1 = true →
        env.defaultTokenAvailable = true →
        env.withDefaultToken = .failure s2 →
        isAuthenticationFailure s2 = false →
        runGitWithAuthFallback env g uri act =
          ([.ambient, .defaultToken],
            .error (buildGitError act uri s2))) ∧
      AuthTier.sshKey ∉ (runGitWithAuthFallback env g uri act).1) ∧
    (∀ (cenv : CloneEnv) (u : UrlModel) (s1 s2 s3 su ow : String),
      isGitHubRepoUri u = true →
      cenv.httpsChain.ambient = .failure s1 →
      isAuthenticationFailure s1 = true →
      cenv.httpsChain.defaultTokenAvailable = true →
      cenv.httpsChain.withDefaultToken = .failure s2 →
      isAuthenticationFailure s2 = true →
      cenv.httpsChain.pickedTokenAvailable = true →
      cenv.httpsChain.withPickedToken = .failure s3 →
      isAuthenticationFailure s3 = true →
      toGitHubSshUri u = some su →
      getGitHubOwner u = some ow →
      (cloneRepoWithFallback cenv u).1 =
        [.ambient, .defaultToken, .pickedToken, .sshKey] ∧
      (cenv.sshOutcome = .success →
        (cloneRepoWithFallback cenv u).2 = .ok ()) ∧
      (∀ s4, cenv.sshOutcome = .failure s4 →
        (cloneRepoWithFallback cenv u).2 =
          .error (buildCombinedCloneAuthError u
            (buildGitError .cloneAct u.raw s3)
            (buildGitError .cloneAct su s4)) ∧
        includesStr (buildCombinedCloneAuthError u
            (buildGitError .cloneAct u.raw s3)
            (buildGitError .cloneAct su s4))
          (buildGitError .cloneAct u.raw s3) = true ∧
        includesStr (buildCombinedCloneAuthError u
            (buildGitError .cloneAct u.raw s3)
            (buildGitError .cloneAct su s4))
          (buildGitError .cloneAct su s4) = true ∧
        includesStr (buildCombinedCloneAuthError u
            (buildGitError .cloneAct u.raw s3)
            (buildGitError .cloneAct su s4))
          "authorize your GitHub token for org SSO" = true)) := by
  constructor
  · intro env g uri act
    refine ⟨?_, ?_, ?_, ?_, ?_, sshKey_not_mem_chain env g uri act⟩
    · intro h
      simp [runGitWithAuthFallback, h]
    · intro s1 h1 hgt ha1 hd hdt
      subst hgt
      simp [runGitWithAuthFallback, h1, ha1, hd, hdt]
    · intro s1 s2 h1 hgt ha1 hd h2 ha2 hpt hpo
      subst hgt
      simp [runGitWithAuthFallback, h1, ha1, hd, h2, ha2, hpt, hpo]
    · intro s1 h1 ha1
      simp [runGitWithAuthFallback, h1, ha1]
    · intro s1 s2 h1 hgt ha1 hd h2 ha2
      subst hgt
      simp [runGitWithAuthFallback, h1, ha1, hd, h2, ha2]
  · intro cenv u s1 s2 s3 su ow hg h1 ha1 hd h2 ha2 hpt h3 ha3 hsu howner
    have hchain := @chain_all_auth_fail cenv.httpsChain u.raw .cloneAct
      s1 s2 s3 h1 ha1 hd h2 ha2 hpt h3
    rw [← hg] at hchain
    have hmention := @buildGitError_mentions_auth .cloneAct u.raw s3 ha3
    refine ⟨?_, ?_, ?_⟩
    · cases hso : cenv.sshOutcome with
      | success => simp [cloneRepoWithFallback, hchain, hsu, hmention, hso]
      | failure s4 => simp [cloneRepoWithFallback, hchain, hsu, hmention, hso]
    · intro hso
      simp [cloneRepoWithFallback, hchain, hsu, hmention, hso]
    · intro s4 hso
      refine ⟨?_, ?_, ?_, ?_⟩
      · simp [cloneRepoWithFallback, hchain, hsu, hmention, hso]
      · unfold buildCombinedCloneAuthError
        rw [howner]
        exact includesStr_append_left _ _ _ (includesStr_append_left _ _ _
          (includesStr_append_left _ _ _ (includesStr_append_left _ _ _
            (includesStr_append_left _ _ _ (includesStr_append_right _ _ _
              (includesStr_self _))))))
      · unfold buildCombinedCloneAuthError
        rw [howner]
        exact includesStr_append_left _ _ _ (includesStr_append_left _ _ _
          (includesStr_append_left _ _ _ (includesStr_append_right _ _ _
            (includesStr_self _))))
      · unfold buildCombinedCloneAuthError
        rw [howner]
        exact includesStr_append_left _ _ _ (includesStr_append_right _ _ _
          (includesStr_append_left _ _ _ (includesStr_append_left _ _ _
            (by decide))))

/-- Witness for C8: a full token-chain auth failure on a concrete GitHub
URL followed by a failing SSH attempt. -/
theorem git_auth_fallback_chain_witness :
    (cloneRepoWithFallback
      ⟨⟨.failure "Authentication failed", true, .failure "repository not found",
        true, .failure "could not read Username"⟩,
       .failure "Permission denied"⟩
      ⟨"https://github.com/acme/tools", "github.com",
        ["", "acme", "tools"], false⟩).1 =
      [.ambient, .defaultToken, .pickedToken, .sshKey] ∧
    (cloneRepoWithFallback
      ⟨⟨.failure "Authentication failed", true, .failure "repository not found",
        true, .failure "could not read Username"⟩,
       .failure "Permission denied"⟩
      ⟨"https://github.com/acme/tools", "github.com",
        ["", "acme", "tools"], false⟩).2 =
      .error (buildCombinedCloneAuthError
        ⟨"https://github.com/acme/tools", "github.com",
          ["", "acme", "tools"], false⟩
        (buildGitError .cloneAct "https://github.com/acme/tools"
          "could not read Username")
        (buildGitError .cloneAct "git@github.com:acme/tools.git"
          "Permission denied")) ∧
    includesStr (buildCombinedCloneAuthError
        ⟨"https://github.com/acme/tools", "github.com",
          ["", "acme", "tools"], false⟩
        (buildGitError .cloneAct "https://github.com/acme/tools"
          "could not read Username")
        (buildGitError .cloneAct "git@github.com:acme/tools.git"
          "Permission denied"))
      "authorize your GitHub token for org SSO" = true := by
  have T := git_auth_fallback_chain.2
    ⟨⟨.failure "Authentication failed", true, .failure "repository not found",
      true, .failure "could not read Username"⟩,
     .failure "Permission denied"⟩
    ⟨"https://github.com/acme/tools", "github.com",
      ["", "acme", "tools"], false⟩
    "Authentication failed" "repository not found" "could not read Username"
    "git@github.com:acme/tools.git" "acme"
    (by decide) rfl (by decide) rfl rfl (by decide) rfl rfl (by decide)
    (by decide) (by decide)
  exact ⟨T.1, (T.2.2 "Permission denied" rfl).1,
    (T.2.2 "Permission denied" rfl).2.2.2⟩
